import Mathlib

/-! The order store of `turn2_ideal.cpp`.

A shallow embedding of `struct Order` and `class ConcurrentHashMap`
(`insert`, `remove`, `display`, `getMutex`) as pure state-passing functions,
followed by the properties of the store that are established on it.

Conventions of the embedding:

* C++ `int` is `CInt`: an integer of the 32-bit two's-complement range.
  `+=` on it wraps modulo `2^32`: signed overflow, which the C++ standard leaves
  undefined, is given the two's-complement result; whatever a run does there, the
  field still holds a value of that range.
* `std::unordered_map<K, V>` is `UnorderedMap K V`, a list of key/value nodes.
  The list order stands for the (unspecified) iteration order; a new node is
  linked in at the front.  The container's guarantee of unique keys is the
  predicate `UnorderedMap.UniqueKeys`.
* Each operation acquires its lock guard on entry and releases it on return,
  so between two calls every `std::shared_mutex` is unlocked; the mutex object
  carries no further state, and the registry records which symbols own one.
* Text written to `std::cout` / `std::cerr` is returned by the operation.
* The lock guards a call constructs and destroys, and its accesses to the registry
  and to the tables, are listed in program order by `insertEvents`, `removeEvents`
  and `displayEvents`.
-/

namespace OrderStore

/-! ## C++ `int` -/

/-- Smallest value of C++ `int`. -/
def INT_MIN : Int := -2147483648

/-- Largest value of C++ `int`. -/
def INT_MAX : Int := 2147483647

/-- Two's-complement reduction of an integer to 32 bits. -/
def wrap32 (x : Int) : Int := (x + 2147483648) % 4294967296 - 2147483648

/-- A value of C++ type `int`. -/
structure CInt where
  val : Int
  lo : INT_MIN ≤ val
  hi : val ≤ INT_MAX
deriving DecidableEq

/-- Conversion of an integer to `int` (identity on the range of `int`). -/
def CInt.ofInt (x : Int) : CInt :=
  ⟨wrap32 x, by unfold wrap32 INT_MIN; omega, by unfold wrap32 INT_MAX; omega⟩

/-- Addition of two `int`s as performed by `+=`. -/
def CInt.add (a b : CInt) : CInt := CInt.ofInt (a.val + b.val)

instance : Add CInt := ⟨CInt.add⟩

instance (n : Nat) : OfNat CInt n := ⟨CInt.ofInt n⟩

/-! ## `struct Order` -/

/-- Order structure to store details of an order. -/
structure Order where
  lotSize : CInt
  price : CInt
deriving DecidableEq

/-- Default constructor `Order() : lotSize(10), price(2)`. -/
instance : Inhabited Order := ⟨⟨10, 2⟩⟩

/-! ## `std::unordered_map` -/

/-- Nodes of a `std::unordered_map<K, V>`, in iteration order. -/
abbrev UnorderedMap (K V : Type) := List (K × V)

namespace UnorderedMap

variable {K V : Type} [DecidableEq K]

/-- Keys of the map, in iteration order. -/
def keys (m : UnorderedMap K V) : List K := m.map Prod.fst

/-- Container guarantee: no two nodes have the same key. -/
def UniqueKeys (m : UnorderedMap K V) : Prop := (keys m).Nodup

instance (m : UnorderedMap K V) : Decidable (UniqueKeys m) := by
  unfold UniqueKeys; infer_instance

/-- Member `find(k)`: the mapped value of the node with key `k`, `none` for `end()`. -/
def find : UnorderedMap K V → K → Option V
  | [], _ => none
  | (k', v) :: rest, k => if k' = k then some v else find rest k

/-- Member `operator[]`, the node-creation half: when no node has key `k`, a node
with a value-initialised mapped value is linked in. -/
def subscript [Inhabited V] (m : UnorderedMap K V) (k : K) : UnorderedMap K V :=
  match find m k with
  | some _ => m
  | none => (k, default) :: m

/-- Write through a reference or iterator to the node with key `k`: its mapped value
`v` becomes `f v`. -/
def update : UnorderedMap K V → K → (V → V) → UnorderedMap K V
  | [], _, _ => []
  | (k', v) :: rest, k, f =>
    if k' = k then (k', f v) :: rest else (k', v) :: update rest k f

/-- Member `erase(k)`: unlinks the node with key `k` if there is one; returns the map
and the number of nodes removed. -/
def erase : UnorderedMap K V → K → UnorderedMap K V × Nat
  | [], _ => ([], 0)
  | (k', v) :: rest, k =>
    if k' = k then (rest, 1) else ((k', v) :: (erase rest k).1, (erase rest k).2)

end UnorderedMap

/-! ## `class ConcurrentHashMap` -/

/-- A `std::shared_mutex` as seen between two operations. -/
inductive SharedMutex where
  | unlocked
deriving DecidableEq, Inhabited

/-- The table of one symbol: price -> order. -/
abbrev PriceLevelTable := UnorderedMap CInt Order

/-- Data members of `ConcurrentHashMap`. -/
structure ConcurrentHashMap where
  map_ : UnorderedMap String PriceLevelTable
  mutexMap_ : UnorderedMap String SharedMutex
  displayMutex_ : SharedMutex
deriving DecidableEq

namespace ConcurrentHashMap

/-- The freshly constructed store (`ConcurrentHashMap concurrentMap;`). -/
def empty : ConcurrentHashMap := ⟨[], [], SharedMutex.unlocked⟩

/-- Member `getMutex`: `return mutexMap_[symbol];`. -/
def getMutex (c : ConcurrentHashMap) (symbol : String) : ConcurrentHashMap :=
  { c with mutexMap_ := UnorderedMap.subscript c.mutexMap_ symbol }

/-- Body of `insert` on the table `orders` bound by `auto& orders = map_[symbol]`. -/
def insertInto (order : Order) (orders : PriceLevelTable) : PriceLevelTable :=
  match UnorderedMap.find orders order.price with
  | some _ =>
    -- it->second.lotSize += order.lotSize;
    UnorderedMap.update orders order.price
      (fun e => { e with lotSize := e.lotSize + order.lotSize })
  | none =>
    -- orders[order.price] = order;
    UnorderedMap.update (UnorderedMap.subscript orders order.price) order.price
      (fun _ => order)

/-- Member `insert(symbol, order)`. -/
def insert (c : ConcurrentHashMap) (symbol : String) (order : Order) : ConcurrentHashMap :=
  let c1 := getMutex c symbol
  { c1 with
    map_ := UnorderedMap.update (UnorderedMap.subscript c1.map_ symbol) symbol
      (insertInto order) }

/-- The two output streams used by the store. -/
inductive Stream where
  | cout
  | cerr
deriving DecidableEq

/-- Member `remove(symbol)`: the state after the call and the line it writes. -/
def remove (c : ConcurrentHashMap) (symbol : String) :
    ConcurrentHashMap × (Stream × String) :=
  let c1 := getMutex c symbol
  let r := UnorderedMap.erase c1.map_ symbol
  if r.2 = 0 then
    ({ c1 with map_ := r.1 },
      (Stream.cerr, "Error: Symbol " ++ symbol ++ " not found for removal.\n"))
  else
    ({ c1 with map_ := r.1 }, (Stream.cout, "Removed orders for symbol " ++ symbol ++ "\n"))

/-- Text printed for one price level by the inner loop of `display`. -/
def showOrder (o : Order) : String :=
  "\x7blotSize: " ++ toString o.lotSize.val ++ ", price: " ++ toString o.price.val ++ "\x7d "

/-- Text printed for one symbol by the outer loop of `display`. -/
def showSymbol (pair : String × PriceLevelTable) : String :=
  pair.1 ++ ": " ++ String.join (pair.2.map (fun e => showOrder e.2)) ++ "\n"

/-- What `display` visits: every symbol of `map_` with the orders of its table, in
iteration order. -/
def enumerate (c : ConcurrentHashMap) : List (String × List Order) :=
  c.map_.map (fun pair => (pair.1, pair.2.map Prod.snd))

/-- Member `display()`: the state after the call and the text written to `std::cout`. -/
def display (c : ConcurrentHashMap) : ConcurrentHashMap × String :=
  (c, String.join (c.map_.map showSymbol))

/-- Is `remove`'s report the error line on `std::cerr` (symbol not found)? -/
def reportsNotFound (symbol : String) (out : Stream × String) : Prop :=
  out = (Stream.cerr, "Error: Symbol " ++ symbol ++ " not found for removal.\n")

/-- Is `remove`'s report the success line on `std::cout`? -/
def reportsRemoved (symbol : String) (out : Stream × String) : Prop :=
  out = (Stream.cout, "Removed orders for symbol " ++ symbol ++ "\n")

instance (symbol : String) (out : Stream × String) : Decidable (reportsNotFound symbol out) := by
  unfold reportsNotFound; infer_instance

instance (symbol : String) (out : Stream × String) : Decidable (reportsRemoved symbol out) := by
  unfold reportsRemoved; infer_instance

/-- The table of `symbol`, if the store has one. -/
def table (c : ConcurrentHashMap) (symbol : String) : Option PriceLevelTable :=
  UnorderedMap.find c.map_ symbol

/-- The order stored for `symbol` at `price`, if any. -/
def level (c : ConcurrentHashMap) (symbol : String) (price : CInt) : Option Order :=
  (table c symbol).bind (fun t => UnorderedMap.find t price)

/-- The nodes of the table of `symbol` whose key is `price`. -/
def entriesAt (c : ConcurrentHashMap) (symbol : String) (price : CInt) : List (CInt × Order) :=
  ((table c symbol).getD []).filter (fun e => decide (e.1 = price))

/-- An operation of the public interface. -/
inductive Op where
  | insert (symbol : String) (order : Order)
  | remove (symbol : String)
  | display

/-- The state after one operation. -/
def step (c : ConcurrentHashMap) : Op → ConcurrentHashMap
  | Op.insert symbol order => insert c symbol order
  | Op.remove symbol => (remove c symbol).1
  | Op.display => (display c).1

/-- The state after a sequence of operations, applied left to right. -/
def run (c : ConcurrentHashMap) (ops : List Op) : ConcurrentHashMap :=
  ops.foldl step c

/-- A table with unique prices in which every order carries its key as its price. -/
def TableConsistent (t : PriceLevelTable) : Prop :=
  UnorderedMap.UniqueKeys t ∧ ∀ e ∈ t, e.2.price = e.1

/-- A store with unique symbols all of whose tables are consistent. -/
def Consistent (c : ConcurrentHashMap) : Prop :=
  UnorderedMap.UniqueKeys c.map_ ∧ ∀ pair ∈ c.map_, TableConsistent pair.2

/-- The store after a sequence of `insert` calls, applied left to right. -/
def runInserts (c : ConcurrentHashMap) (calls : List (String × Order)) : ConcurrentHashMap :=
  calls.foldl (fun c call => insert c call.1 call.2) c

/-- The calls of a sequence that insert for `symbol` at `price`. -/
def callsAt (calls : List (String × Order)) (symbol : String) (price : CInt) :
    List (String × Order) :=
  calls.filter (fun call => decide (call.1 = symbol ∧ call.2.price = price))

/-- The integer sum of the lot sizes of the calls that insert for `symbol` at `price`. -/
def lotSizeSum (calls : List (String × Order)) (symbol : String) (price : CInt) : Int :=
  ((callsAt calls symbol price).map (fun call => call.2.lotSize.val)).sum

/-- What one `insert` call does to the order seen at (`symbol`, `price`): a call for
that symbol and price aggregates onto the entry or creates it, any other call leaves it. -/
def levelAfterInsert (symbol : String) (price : CInt) (l : Option Order)
    (call : String × Order) : Option Order :=
  if call.1 = symbol ∧ call.2.price = price then
    some (match l with
      | some e => { e with lotSize := e.lotSize + call.2.lotSize }
      | none => call.2)
  else l

/-! ### Lock guards and table accesses of one call -/

/-- A mutex of the store: the registry entry `mutexMap_[symbol]`, or `displayMutex_`. -/
inductive MutexRef where
  | ofSymbol (symbol : String)
  | displayMutex
deriving DecidableEq

/-- Ownership mode of a guard: `std::shared_lock` or `std::unique_lock`. -/
inductive LockMode where
  | shared
  | exclusive
deriving DecidableEq

/-- What a call does to the mutexes and to the tables, in program order. -/
inductive Event where
  | acquire (m : MutexRef) (mode : LockMode)
  | release (m : MutexRef)
  | accessRegistry (symbol : String)
  | readTable (symbol : String)
  | writeTable (symbol : String)
deriving DecidableEq

/-- Events of `insert(symbol, order)`: `getMutex(symbol)` evaluates `mutexMap_[symbol]`,
the guard on the mutex it returns is constructed, `map_[symbol]` binds (and may create)
the table, `orders.find` reads it, either branch writes it, and the guard is destroyed
on return. -/
def insertEvents (symbol : String) : List Event :=
  [Event.accessRegistry symbol,
   Event.acquire (MutexRef.ofSymbol symbol) LockMode.exclusive,
   Event.writeTable symbol,
   Event.readTable symbol,
   Event.writeTable symbol,
   Event.release (MutexRef.ofSymbol symbol)]

/-- Events of `remove(symbol)`: `getMutex(symbol)` evaluates `mutexMap_[symbol]`, the
guard on the mutex it returns is constructed, `map_.erase(symbol)` destroys the table
when there is one, and the guard is destroyed on return. -/
def removeEvents (c : ConcurrentHashMap) (symbol : String) : List Event :=
  [Event.accessRegistry symbol,
   Event.acquire (MutexRef.ofSymbol symbol) LockMode.exclusive] ++
    (match table c symbol with
      | some _ => [Event.writeTable symbol]
      | none => []) ++
    [Event.release (MutexRef.ofSymbol symbol)]

/-- Events of `display()`: the shared guard on `displayMutex_` is constructed, the loop
reads the table of every symbol of `map_`, and the guard is destroyed on return. -/
def displayEvents (c : ConcurrentHashMap) : List Event :=
  [Event.acquire MutexRef.displayMutex LockMode.shared] ++
    c.map_.map (fun pair => Event.readTable pair.1) ++
    [Event.release MutexRef.displayMutex]

/-- Does every table access of the event sequence happen while the lock of that table's
symbol is held, exclusively for a write and in either mode for a read? `held` lists the
guards alive before the first event. -/
def accessesUnderSymbolLock : List (MutexRef × LockMode) → List Event → Bool
  | _, [] => true
  | held, Event.acquire m mode :: rest => accessesUnderSymbolLock ((m, mode) :: held) rest
  | held, Event.release m :: rest =>
    accessesUnderSymbolLock (held.filter (fun h => decide (h.1 ≠ m))) rest
  | held, Event.accessRegistry _ :: rest => accessesUnderSymbolLock held rest
  | held, Event.readTable s :: rest =>
    held.any (fun h => decide (h.1 = MutexRef.ofSymbol s)) &&
      accessesUnderSymbolLock held rest
  | held, Event.writeTable s :: rest =>
    held.any (fun h => decide (h = (MutexRef.ofSymbol s, LockMode.exclusive))) &&
      accessesUnderSymbolLock held rest

/-- Does every evaluation of `mutexMap_[symbol]` in the event sequence happen while some
guard is alive? `held` lists the guards alive before the first event. -/
def registryAccessesUnderLock : List (MutexRef × LockMode) → List Event → Bool
  | _, [] => true
  | held, Event.acquire m mode :: rest => registryAccessesUnderLock ((m, mode) :: held) rest
  | held, Event.release m :: rest =>
    registryAccessesUnderLock (held.filter (fun h => decide (h.1 ≠ m))) rest
  | held, Event.accessRegistry _ :: rest =>
    !held.isEmpty && registryAccessesUnderLock held rest
  | held, Event.readTable _ :: rest => registryAccessesUnderLock held rest
  | held, Event.writeTable _ :: rest => registryAccessesUnderLock held rest

end ConcurrentHashMap

/-! ## The driver's sample data -/

/-- The ten sample symbols of `main`. -/
def symbols : List String :=
  ["NESTLEIND", "HDFCBANK", "RELIANCE", "TCS", "INFY",
   "SBIN", "ICICIBANK", "LT", "BAJFINANCE", "HINDUNILVR"]

/-- The store of `main` after the loop inserting `Order(10, 2)` for every symbol. -/
def mainInitial : ConcurrentHashMap :=
  symbols.foldl (fun c symbol => ConcurrentHashMap.insert c symbol ⟨10, 2⟩)
    ConcurrentHashMap.empty

/-- The `insert` calls of `main`, in program order. -/
def mainCalls : List (String × Order) :=
  symbols.map (fun symbol => (symbol, (⟨10, 2⟩ : Order))) ++
    [("NESTLEIND", ⟨20, 2⟩), ("HDFCBANK", ⟨15, 4⟩)]

/-- The store of `main` at its first `display()`. -/
def mainInserted : ConcurrentHashMap :=
  ConcurrentHashMap.insert (ConcurrentHashMap.insert mainInitial "NESTLEIND" ⟨20, 2⟩)
    "HDFCBANK" ⟨15, 4⟩

/-! ## Lemmas on `std::unordered_map` -/

namespace UnorderedMap

variable {K V : Type} [DecidableEq K]

theorem find_eq_none_iff (m : UnorderedMap K V) (k : K) :
    find m k = none ↔ k ∉ keys m := by
  induction m with
  | nil => simp [find, keys]
  | cons hd tl ih =>
    obtain ⟨k', v⟩ := hd
    by_cases h : k' = k
    · simp [find, keys, h]
    · have h' : ¬ k = k' := fun e => h e.symm
      simpa [find, keys, h, h'] using ih

theorem find_update_same (m : UnorderedMap K V) (k : K) (f : V → V) :
    find (update m k f) k = (find m k).map f := by
  induction m with
  | nil => simp [find, update]
  | cons hd tl ih =>
    obtain ⟨k', v⟩ := hd
    by_cases h : k' = k
    · simp [find, update, h]
    · simpa [find, update, h] using ih

theorem find_update_ne (m : UnorderedMap K V) (k q : K) (f : V → V) (hq : q ≠ k) :
    find (update m k f) q = find m q := by
  induction m with
  | nil => simp [find, update]
  | cons hd tl ih =>
    obtain ⟨k', v⟩ := hd
    by_cases h : k' = k
    · subst h
      have h' : ¬ k' = q := fun e => hq e.symm
      simp [find, update, h']
    · by_cases h2 : k' = q
      · subst h2
        simp [find, update, h]
      · simpa [find, update, h, h2] using ih

theorem keys_update (m : UnorderedMap K V) (k : K) (f : V → V) :
    keys (update m k f) = keys m := by
  induction m with
  | nil => simp [keys, update]
  | cons hd tl ih =>
    obtain ⟨k', v⟩ := hd
    by_cases h : k' = k
    · simp [keys, update, h]
    · simpa [keys, update, h] using ih

theorem length_update (m : UnorderedMap K V) (k : K) (f : V → V) :
    (update m k f).length = m.length := by
  have h := congrArg List.length (keys_update m k f)
  simpa [keys] using h

theorem find_subscript_same [Inhabited V] (m : UnorderedMap K V) (k : K) :
    find (subscript m k) k = some ((find m k).getD default) := by
  unfold subscript
  cases h : find m k with
  | none => simp [find]
  | some v => simp [h]

theorem find_subscript_ne [Inhabited V] (m : UnorderedMap K V) (k q : K) (hq : q ≠ k) :
    find (subscript m k) q = find m q := by
  unfold subscript
  cases h : find m k with
  | none =>
    have h' : ¬ k = q := fun e => hq e.symm
    simp [find, h']
  | some v => simp

theorem mem_keys_subscript [Inhabited V] (m : UnorderedMap K V) (k q : K) :
    q ∈ keys (subscript m k) ↔ q = k ∨ q ∈ keys m := by
  unfold subscript
  cases h : find m k with
  | none => simp [keys]
  | some v =>
    have hk : k ∈ keys m := by
      by_contra hn
      rw [← find_eq_none_iff] at hn
      simp [hn] at h
    constructor
    · intro hq; exact Or.inr hq
    · rintro (rfl | hq)
      · exact hk
      · exact hq

theorem uniqueKeys_subscript [Inhabited V] (m : UnorderedMap K V) (k : K)
    (hm : UniqueKeys m) : UniqueKeys (subscript m k) := by
  unfold subscript
  cases h : find m k with
  | none =>
    have hk : k ∉ keys m := (find_eq_none_iff m k).1 h
    simpa [UniqueKeys, keys] using And.intro (by simpa [keys] using hk) hm
  | some v => simpa using hm

theorem uniqueKeys_update (m : UnorderedMap K V) (k : K) (f : V → V)
    (hm : UniqueKeys m) : UniqueKeys (update m k f) := by
  unfold UniqueKeys
  rw [keys_update]
  exact hm

theorem erase_count_eq_zero_iff (m : UnorderedMap K V) (k : K) :
    (erase m k).2 = 0 ↔ find m k = none := by
  induction m with
  | nil => simp [find, erase]
  | cons hd tl ih =>
    obtain ⟨k', v⟩ := hd
    by_cases h : k' = k
    · simp [find, erase, h]
    · simpa [find, erase, h] using ih

theorem erase_of_find_none (m : UnorderedMap K V) (k : K) (h : find m k = none) :
    (erase m k).1 = m := by
  induction m with
  | nil => simp [erase]
  | cons hd tl ih =>
    obtain ⟨k', v⟩ := hd
    by_cases h' : k' = k
    · simp [find, h'] at h
    · simp only [find, h', if_false] at h
      simp [erase, h', ih h]

theorem find_erase_ne (m : UnorderedMap K V) (k q : K) (hq : q ≠ k) :
    find (erase m k).1 q = find m q := by
  induction m with
  | nil => simp [find, erase]
  | cons hd tl ih =>
    obtain ⟨k', v⟩ := hd
    by_cases h : k' = k
    · subst h
      have h' : ¬ k' = q := fun e => hq e.symm
      simp [find, erase, h']
    · by_cases h2 : k' = q
      · subst h2
        simp [find, erase, h]
      · simpa [find, erase, h, h2] using ih

theorem mem_keys_erase (m : UnorderedMap K V) (k q : K) (h : q ∈ keys (erase m k).1) :
    q ∈ keys m := by
  induction m with
  | nil => simp [erase, keys] at h
  | cons hd tl ih =>
    obtain ⟨k', v⟩ := hd
    by_cases h' : k' = k
    · simp only [erase, h', if_true] at h
      simp only [keys, List.map_cons, List.mem_cons]
      exact Or.inr h
    · simp only [erase, h', if_false, keys, List.map_cons, List.mem_cons] at h
      simp only [keys, List.map_cons, List.mem_cons]
      rcases h with h | h
      · exact Or.inl h
      · exact Or.inr (ih h)

theorem mem_erase (m : UnorderedMap K V) (k : K) (e : K × V) (h : e ∈ (erase m k).1) :
    e ∈ m := by
  induction m with
  | nil => simp [erase] at h
  | cons hd tl ih =>
    obtain ⟨k', v⟩ := hd
    by_cases h' : k' = k
    · simp only [erase, h', if_true] at h
      exact List.mem_cons_of_mem _ h
    · simp only [erase, h', if_false, List.mem_cons] at h
      rcases h with h | h
      · exact h ▸ List.mem_cons_self _ _
      · exact List.mem_cons_of_mem _ (ih h)

theorem uniqueKeys_erase (m : UnorderedMap K V) (k : K) (hm : UniqueKeys m) :
    UniqueKeys (erase m k).1 := by
  induction m with
  | nil => simpa [erase] using hm
  | cons hd tl ih =>
    obtain ⟨k', v⟩ := hd
    have hm' : k' ∉ keys tl ∧ UniqueKeys tl := by
      simpa [UniqueKeys, keys] using hm
    by_cases h' : k' = k
    · simpa [erase, h'] using hm'.2
    · have h1 : k' ∉ keys (erase tl k).1 := fun hin => hm'.1 (mem_keys_erase tl k k' hin)
      have h2 := ih hm'.2
      simp only [erase, h', if_false]
      simpa [UniqueKeys, keys] using And.intro (by simpa [keys] using h1) h2

theorem find_erase_same (m : UnorderedMap K V) (k : K) (hm : UniqueKeys m) :
    find (erase m k).1 k = none := by
  induction m with
  | nil => simp [find, erase]
  | cons hd tl ih =>
    obtain ⟨k', v⟩ := hd
    have hm' : k' ∉ keys tl ∧ UniqueKeys tl := by
      simpa [UniqueKeys, keys] using hm
    by_cases h' : k' = k
    · subst h'
      simpa [erase] using (find_eq_none_iff tl k').2 hm'.1
    · simpa [find, erase, h'] using ih hm'.2

theorem mem_update (m : UnorderedMap K V) (k : K) (f : V → V) (e : K × V)
    (h : e ∈ update m k f) : e ∈ m ∨ ∃ v, (k, v) ∈ m ∧ e = (k, f v) := by
  induction m with
  | nil => simp [update] at h
  | cons hd tl ih =>
    obtain ⟨k', v⟩ := hd
    by_cases h' : k' = k
    · subst h'
      simp only [update, if_true, List.mem_cons] at h
      rcases h with h | h
      · exact Or.inr ⟨v, List.mem_cons_self _ _, h⟩
      · exact Or.inl (List.mem_cons_of_mem _ h)
    · simp only [update, h', if_false, List.mem_cons] at h
      rcases h with h | h
      · exact Or.inl (h ▸ List.mem_cons_self _ _)
      · rcases ih h with h2 | ⟨w, hw, he⟩
        · exact Or.inl (List.mem_cons_of_mem _ h2)
        · exact Or.inr ⟨w, List.mem_cons_of_mem _ hw, he⟩

theorem mem_subscript [Inhabited V] (m : UnorderedMap K V) (k : K) (e : K × V)
    (h : e ∈ subscript m k) : e ∈ m ∨ e = (k, default) := by
  unfold subscript at h
  cases hf : find m k with
  | none =>
    simp only [hf, List.mem_cons] at h
    rcases h with h | h
    · exact Or.inr h
    · exact Or.inl h
  | some v =>
    simp only [hf] at h
    exact Or.inl h

theorem subscript_of_mem [Inhabited V] (m : UnorderedMap K V) (k : K) (h : k ∈ keys m) :
    subscript m k = m := by
  unfold subscript
  cases hf : find m k with
  | none => exact absurd h ((find_eq_none_iff m k).1 hf)
  | some v => rfl

theorem mem_of_find_eq_some (m : UnorderedMap K V) (k : K) (v : V) (h : find m k = some v) :
    (k, v) ∈ m := by
  induction m with
  | nil => simp [find] at h
  | cons hd tl ih =>
    obtain ⟨k', w⟩ := hd
    by_cases h' : k' = k
    · subst h'
      simp only [find, if_true, Option.some.injEq] at h
      subst h
      exact List.mem_cons_self _ _
    · simp only [find, h', if_false] at h
      exact List.mem_cons_of_mem _ (ih h)

end UnorderedMap

/-! ## Lemmas on the store -/

namespace ConcurrentHashMap

open UnorderedMap

theorem insertInto_fresh (order : Order) (orders : PriceLevelTable)
    (h : find orders order.price = none) :
    insertInto order orders = (order.price, order) :: orders := by
  simp [insertInto, h, subscript, update]

theorem insertInto_existing (order e : Order) (orders : PriceLevelTable)
    (h : find orders order.price = some e) :
    insertInto order orders =
      update orders order.price (fun e => { e with lotSize := e.lotSize + order.lotSize }) := by
  simp [insertInto, h]

theorem find_insertInto_same (order : Order) (orders : PriceLevelTable) :
    find (insertInto order orders) order.price =
      some (match find orders order.price with
        | some e => { e with lotSize := e.lotSize + order.lotSize }
        | none => order) := by
  cases h : find orders order.price with
  | none => simp [insertInto_fresh order orders h, find]
  | some e => simp [insertInto_existing order e orders h, find_update_same, h]

theorem find_insertInto_ne (order : Order) (orders : PriceLevelTable) (q : CInt)
    (hq : q ≠ order.price) : find (insertInto order orders) q = find orders q := by
  cases h : find orders order.price with
  | none =>
    have h' : ¬ order.price = q := fun e => hq e.symm
    simp [insertInto_fresh order orders h, find, h']
  | some e =>
    rw [insertInto_existing order e orders h]
    exact find_update_ne orders order.price q _ hq

theorem filter_update_ne (orders : PriceLevelTable) (k q : CInt) (f : Order → Order)
    (hq : q ≠ k) :
    (update orders k f).filter (fun e => decide (e.1 = q)) =
      orders.filter (fun e => decide (e.1 = q)) := by
  induction orders with
  | nil => simp [update]
  | cons hd tl ih =>
    obtain ⟨k', v⟩ := hd
    by_cases h : k' = k
    · subst h
      have h' : ¬ k' = q := fun e => hq e.symm
      simp [update, h']
    · by_cases h2 : k' = q
      · subst h2
        simp [update, h, ih]
      · simp [update, h, h2, ih]

theorem filter_of_find_none (orders : PriceLevelTable) (q : CInt)
    (h : find orders q = none) : orders.filter (fun e => decide (e.1 = q)) = [] := by
  induction orders with
  | nil => simp
  | cons hd tl ih =>
    obtain ⟨k', v⟩ := hd
    by_cases h' : k' = q
    · simp [find, h'] at h
    · simp only [find, h', if_false] at h
      simp [h', ih h]

theorem filter_insertInto_ne (order : Order) (orders : PriceLevelTable) (q : CInt)
    (hq : q ≠ order.price) :
    (insertInto order orders).filter (fun e => decide (e.1 = q)) =
      orders.filter (fun e => decide (e.1 = q)) := by
  cases h : find orders order.price with
  | none =>
    have h' : ¬ order.price = q := fun e => hq e.symm
    simp [insertInto_fresh order orders h, h']
  | some e =>
    rw [insertInto_existing order e orders h]
    exact filter_update_ne orders order.price q _ hq

theorem table_insert_same (c : ConcurrentHashMap) (s : String) (o : Order) :
    table (insert c s o) s = some (insertInto o ((table c s).getD [])) := by
  simp only [table, insert, getMutex, find_update_same, find_subscript_same]
  rfl

theorem table_insert_ne (c : ConcurrentHashMap) (s t : String) (o : Order) (ht : t ≠ s) :
    table (insert c s o) t = table c t := by
  simp only [table, insert, getMutex]
  rw [find_update_ne _ _ _ _ ht, find_subscript_ne _ _ _ ht]

theorem remove_map (c : ConcurrentHashMap) (s : String) :
    (remove c s).1.map_ = (erase c.map_ s).1 := by
  unfold remove getMutex
  by_cases h : (erase c.map_ s).2 = 0 <;> simp [h]

theorem remove_mutexMap (c : ConcurrentHashMap) (s : String) :
    (remove c s).1.mutexMap_ = subscript c.mutexMap_ s := by
  unfold remove getMutex
  by_cases h : (erase c.map_ s).2 = 0 <;> simp [h]

theorem remove_reportsNotFound_iff (c : ConcurrentHashMap) (s : String) :
    reportsNotFound s (remove c s).2 ↔ table c s = none := by
  unfold remove getMutex reportsNotFound table
  by_cases h : (erase c.map_ s).2 = 0
  · simp [h, (erase_count_eq_zero_iff c.map_ s).1 h]
  · have h' : ¬ find c.map_ s = none := fun e => h ((erase_count_eq_zero_iff c.map_ s).2 e)
    simp [h, h']

theorem remove_reportsRemoved_iff (c : ConcurrentHashMap) (s : String) :
    reportsRemoved s (remove c s).2 ↔ table c s ≠ none := by
  unfold remove getMutex reportsRemoved table
  by_cases h : (erase c.map_ s).2 = 0
  · simp [h, (erase_count_eq_zero_iff c.map_ s).1 h]
  · have h' : ¬ find c.map_ s = none := fun e => h ((erase_count_eq_zero_iff c.map_ s).2 e)
    simp [h, h']

theorem level_of_table (c : ConcurrentHashMap) (s : String) (p : CInt) :
    level c s p = find ((table c s).getD []) p := by
  unfold level
  cases table c s <;> simp [find]

end ConcurrentHashMap

/-! ## Insertion -/

namespace ConcurrentHashMap

open UnorderedMap

/-- C1, as stated, fails on the code: for `a = 2147483647` and `b = 1` the two inserts
at a fresh price leave one entry whose `lotSize` is `-2147483648`, not `a + b`;
no `int` holds `2147483648`. -/
theorem insert_insert_same_price_overflows :
    level empty "X" 2 = none ∧
    entriesAt (insert (insert empty "X" ⟨CInt.ofInt 2147483647, 2⟩) "X" ⟨1, 2⟩) "X" 2 =
      [(2, ⟨CInt.ofInt (-2147483648), 2⟩)] ∧
    (CInt.ofInt (-2147483648)).val = -2147483648 ∧
    (CInt.ofInt 2147483647).val + (1 : CInt).val = 2147483648 ∧
    (∀ x : CInt, x.val ≠ 2147483648) ∧
    ¬ ∃ o : Order,
      entriesAt (insert (insert empty "X" ⟨CInt.ofInt 2147483647, 2⟩) "X" ⟨1, 2⟩) "X" 2 =
        [(2, o)] ∧
      o.lotSize.val = (CInt.ofInt 2147483647).val + (1 : CInt).val := by
  refine ⟨by decide, by decide, by decide, by decide, ?_, ?_⟩
  · intro x hx
    have h := x.hi
    rw [hx] at h
    revert h
    decide
  rintro ⟨o, h1, h2⟩
  have h3 : entriesAt (insert (insert empty "X" ⟨CInt.ofInt 2147483647, 2⟩) "X" ⟨1, 2⟩) "X" 2 =
      [(2, ⟨CInt.ofInt (-2147483648), 2⟩)] := by decide
  rw [h3] at h1
  have h4 : o = ⟨CInt.ofInt (-2147483648), 2⟩ := by
    have := List.head_eq_of_cons_eq h1
    exact (congrArg Prod.snd this).symm
  rw [h4] at h2
  revert h2
  decide

/-- C1 (amended): if `s` has no entry at price `p`, then after `insert(s, {a, p})` and
`insert(s, {b, p})`, for all `int`s `a` and `b`, the table of `s` holds exactly one entry
at price `p`, and it is `{lotSize: a + b, price: p}` with `+` the addition of `int`: its
`lotSize` is the integer sum of `a` and `b` reduced modulo `2^32` into the range of
`int`, which is the integer sum itself when that lies in the range of `int`. -/
theorem insert_insert_same_price (c : ConcurrentHashMap) (s : String) (p a b : CInt)
    (hfresh : level c s p = none) :
    entriesAt (insert (insert c s ⟨a, p⟩) s ⟨b, p⟩) s p = [(p, ⟨a + b, p⟩)] ∧
    level (insert (insert c s ⟨a, p⟩) s ⟨b, p⟩) s p = some ⟨a + b, p⟩ ∧
    (a + b).val = (a.val + b.val + 2147483648) % 4294967296 - 2147483648 ∧
    (INT_MIN ≤ a.val + b.val → a.val + b.val ≤ INT_MAX → (a + b).val = a.val + b.val) := by
  have h0 : find ((table c s).getD []) p = none := by
    rw [← level_of_table]; exact hfresh
  have h1 : insertInto ⟨a, p⟩ ((table c s).getD []) = (p, ⟨a, p⟩) :: (table c s).getD [] :=
    insertInto_fresh ⟨a, p⟩ _ h0
  have h2 : insertInto ⟨b, p⟩ ((p, ⟨a, p⟩) :: (table c s).getD []) =
      (p, ⟨a + b, p⟩) :: (table c s).getD [] := by
    simp [insertInto, find, update]
  have ht : table (insert (insert c s ⟨a, p⟩) s ⟨b, p⟩) s =
      some ((p, ⟨a + b, p⟩) :: (table c s).getD []) := by
    rw [table_insert_same, table_insert_same]
    simp only [Option.getD_some, h1, h2]
  refine ⟨?_, ?_, rfl, ?_⟩
  · simp [entriesAt, ht, filter_of_find_none _ _ h0]
  · simp [level, ht, find]
  · intro hlo hhi
    show wrap32 (a.val + b.val) = a.val + b.val
    unfold wrap32
    unfold INT_MIN at hlo
    unfold INT_MAX at hhi
    omega

/-- Witness of `insert_insert_same_price`: `insert("NESTLEIND", 10, 2)` then
`insert("NESTLEIND", 20, 2)` gives the single entry `{lotSize: 30, price: 2}`; and
`insert("X", 2147483647, 2)` then `insert("X", 1, 2)` gives the single entry
`{lotSize: -2147483648, price: 2}`. -/
theorem insert_insert_same_price_witness :
    level empty "NESTLEIND" 2 = none ∧
    (entriesAt (insert (insert empty "NESTLEIND" ⟨10, 2⟩) "NESTLEIND" ⟨20, 2⟩) "NESTLEIND" 2 =
        [(2, ⟨10 + 20, 2⟩)] ∧
      level (insert (insert empty "NESTLEIND" ⟨10, 2⟩) "NESTLEIND" ⟨20, 2⟩) "NESTLEIND" 2 =
        some ⟨10 + 20, 2⟩) ∧
    ((10 : CInt) + 20) = 30 ∧ ((10 : CInt) + 20).val = 30 ∧
    level empty "X" 2 = none ∧
    entriesAt (insert (insert empty "X" ⟨CInt.ofInt 2147483647, 2⟩) "X" ⟨1, 2⟩) "X" 2 =
      [(2, ⟨CInt.ofInt 2147483647 + 1, 2⟩)] ∧
    (CInt.ofInt 2147483647 + 1).val = -2147483648 := by
  have h := insert_insert_same_price empty "NESTLEIND" 2 10 20 (by decide)
  have hx := insert_insert_same_price empty "X" 2 (CInt.ofInt 2147483647) 1 (by decide)
  refine ⟨by decide, ⟨h.1, h.2.1⟩, by decide, ?_, by decide, hx.1, ?_⟩
  · rw [h.2.2.2 (by decide) (by decide)]
    decide
  · rw [hx.2.2.1]
    decide

/-- C2: for an order `o` whose price is not yet a key of the table of `s`, `insert(s, o)`
adds exactly the entry `o` under `o.price` (the table of `s` is created when `s` had
none) and leaves every other price level of `s` as it was. -/
theorem insert_new_price (c : ConcurrentHashMap) (s : String) (o : Order)
    (hfresh : level c s o.price = none) :
    entriesAt (insert c s o) s o.price = [(o.price, o)] ∧
    level (insert c s o) s o.price = some o ∧
    (∀ q, q ≠ o.price → entriesAt (insert c s o) s q = entriesAt c s q) ∧
    (∀ q, q ≠ o.price → level (insert c s o) s q = level c s q) ∧
    ((table (insert c s o) s).getD []).length = ((table c s).getD []).length + 1 ∧
    (table c s = none → table (insert c s o) s = some [(o.price, o)]) := by
  have h0 : find ((table c s).getD []) o.price = none := by
    rw [← level_of_table]; exact hfresh
  have ht : table (insert c s o) s = some ((o.price, o) :: (table c s).getD []) := by
    rw [table_insert_same, insertInto_fresh o _ h0]
  refine ⟨?_, ?_, ?_, ?_, ?_, ?_⟩
  · simp [entriesAt, ht, filter_of_find_none _ _ h0]
  · simp [level, ht, find]
  · intro q hq
    have h' : ¬ o.price = q := fun e => hq e.symm
    simp [entriesAt, ht, h']
  · intro q hq
    have h' : ¬ o.price = q := fun e => hq e.symm
    rw [level_of_table, level_of_table, ht]
    simp [find, h']
  · simp [ht]
  · intro hn
    rw [ht, hn]
    rfl

/-- Witness of `insert_new_price`: `insert("HDFCBANK", 10, 2)` then
`insert("HDFCBANK", 15, 4)` gives the two entries `{10, 2}` and `{15, 4}`. -/
theorem insert_new_price_witness :
    level (insert empty "HDFCBANK" ⟨10, 2⟩) "HDFCBANK" 4 = none ∧
    level (insert (insert empty "HDFCBANK" ⟨10, 2⟩) "HDFCBANK" ⟨15, 4⟩) "HDFCBANK" 4 =
      some ⟨15, 4⟩ ∧
    level (insert (insert empty "HDFCBANK" ⟨10, 2⟩) "HDFCBANK" ⟨15, 4⟩) "HDFCBANK" 2 =
      some ⟨10, 2⟩ ∧
    ((table (insert (insert empty "HDFCBANK" ⟨10, 2⟩) "HDFCBANK" ⟨15, 4⟩) "HDFCBANK").getD
      []).length = 2 := by
  have h := insert_new_price (insert empty "HDFCBANK" ⟨10, 2⟩) "HDFCBANK" ⟨15, 4⟩ (by decide)
  refine ⟨by decide, h.2.1, ?_, ?_⟩
  · rw [h.2.2.2.1 2 (by decide)]
    decide
  · rw [h.2.2.2.2.1]
    decide

/-! ## Removal -/

/-- C3: for a symbol `s` that has a table, `remove(s)` writes the success line and
afterwards `s` is not a key of the store: it has no table, no price level, and is not
among the symbols enumerated by `display`, however many price levels it had. -/
theorem remove_clears_symbol (c : ConcurrentHashMap) (s : String)
    (hc : UniqueKeys c.map_) (hs : table c s ≠ none) :
    reportsRemoved s (remove c s).2 ∧
    s ∉ keys (remove c s).1.map_ ∧
    table (remove c s).1 s = none ∧
    (∀ p, level (remove c s).1 s p = none) ∧
    ∀ e ∈ enumerate (remove c s).1, e.1 ≠ s := by
  have ht : table (remove c s).1 s = none := by
    unfold table
    rw [remove_map]
    exact find_erase_same c.map_ s hc
  have hk : s ∉ keys (remove c s).1.map_ := (find_eq_none_iff _ _).1 ht
  refine ⟨(remove_reportsRemoved_iff c s).2 hs, hk, ht, ?_, ?_⟩
  · intro p
    simp [level, ht]
  · intro e he heq
    apply hk
    simp only [enumerate, List.mem_map] at he
    obtain ⟨pair, hp, rfl⟩ := he
    simp only [keys, List.mem_map]
    exact ⟨pair, hp, heq⟩

/-- Witness of `remove_clears_symbol`: `remove("HDFCBANK")` on the store of `main` after
its insertions, where HDFCBANK has two price levels. -/
theorem remove_clears_symbol_witness :
    UniqueKeys mainInserted.map_ ∧
    ((table mainInserted "HDFCBANK").getD []).length = 2 ∧
    (reportsRemoved "HDFCBANK" (remove mainInserted "HDFCBANK").2 ∧
      "HDFCBANK" ∉ keys (remove mainInserted "HDFCBANK").1.map_ ∧
      table (remove mainInserted "HDFCBANK").1 "HDFCBANK" = none ∧
      (∀ p, level (remove mainInserted "HDFCBANK").1 "HDFCBANK" p = none) ∧
      ∀ e ∈ enumerate (remove mainInserted "HDFCBANK").1, e.1 ≠ "HDFCBANK") :=
  ⟨by decide, by decide,
   remove_clears_symbol mainInserted "HDFCBANK" (by decide) (by decide)⟩

/-- C4: `remove(s)` writes the not-found line exactly when `s` has no table; in that case
the symbol -> table mapping is left as it was; and a `remove(s)` that follows a
`remove(s)` always writes the not-found line. -/
theorem remove_absent_symbol (c : ConcurrentHashMap) (s : String)
    (hc : UniqueKeys c.map_) :
    (reportsNotFound s (remove c s).2 ↔ table c s = none) ∧
    (reportsNotFound s (remove c s).2 → (remove c s).1.map_ = c.map_) ∧
    (reportsRemoved s (remove c s).2 ∨ reportsNotFound s (remove c s).2) ∧
    reportsNotFound s (remove (remove c s).1 s).2 ∧
    (remove (remove c s).1 s).1.map_ = (remove c s).1.map_ := by
  have h2 : table (remove c s).1 s = none := by
    unfold table
    rw [remove_map]
    exact find_erase_same c.map_ s hc
  refine ⟨remove_reportsNotFound_iff c s, ?_, ?_, ?_, ?_⟩
  · intro h
    rw [remove_map]
    exact erase_of_find_none c.map_ s ((remove_reportsNotFound_iff c s).1 h)
  · by_cases h : table c s = none
    · exact Or.inr ((remove_reportsNotFound_iff c s).2 h)
    · exact Or.inl ((remove_reportsRemoved_iff c s).2 h)
  · exact (remove_reportsNotFound_iff _ s).2 h2
  · rw [remove_map (remove c s).1 s]
    exact erase_of_find_none _ s h2

/-- Witness of `remove_absent_symbol`: `remove("NONEXISTENT")` on the store of `main`. -/
theorem remove_absent_symbol_witness :
    UniqueKeys mainInserted.map_ ∧
    table mainInserted "NONEXISTENT" = none ∧
    reportsNotFound "NONEXISTENT" (remove mainInserted "NONEXISTENT").2 ∧
    (remove mainInserted "NONEXISTENT").1.map_ = mainInserted.map_ := by
  have h := remove_absent_symbol mainInserted "NONEXISTENT" (by decide)
  have h1 : table mainInserted "NONEXISTENT" = none := by decide
  exact ⟨by decide, h1, h.1.2 h1, h.2.1 (h.1.2 h1)⟩

/-! ## Frame -/

/-- C5: for a symbol `t` different from `s`, the table of `t` (its presence and all of
its nodes) is the same after `insert(s, o)` and after `remove(s)` as before, whether
`remove` succeeds or reports not-found. -/
theorem mutators_frame (c : ConcurrentHashMap) (s t : String) (o : Order) (hne : t ≠ s) :
    table (insert c s o) t = table c t ∧
    table (remove c s).1 t = table c t ∧
    (∀ p, level (insert c s o) t p = level c t p) ∧
    (∀ p, level (remove c s).1 t p = level c t p) := by
  have h1 : table (insert c s o) t = table c t := table_insert_ne c s t o hne
  have h2 : table (remove c s).1 t = table c t := by
    unfold table
    rw [remove_map]
    exact find_erase_ne c.map_ s t hne
  refine ⟨h1, h2, ?_, ?_⟩
  · intro p
    simp [level, h1]
  · intro p
    simp [level, h2]

/-- Witness of `mutators_frame`: HDFCBANK is untouched by an insert into, a removal of,
and a not-found removal relative to another symbol. -/
theorem mutators_frame_witness :
    "HDFCBANK" ≠ "NESTLEIND" ∧
    table (insert mainInserted "NESTLEIND" ⟨20, 2⟩) "HDFCBANK" = table mainInserted "HDFCBANK" ∧
    table (remove mainInserted "NESTLEIND").1 "HDFCBANK" = table mainInserted "HDFCBANK" ∧
    table mainInserted "HDFCBANK" = some [(4, ⟨15, 4⟩), (2, ⟨10, 2⟩)] := by
  have h := mutators_frame mainInserted "NESTLEIND" "HDFCBANK" ⟨20, 2⟩ (by decide)
  exact ⟨by decide, h.1, h.2.1, by decide⟩

/-! ## Invariant of the reachable states -/

theorem tableConsistent_insertInto (order : Order) (orders : PriceLevelTable)
    (h : TableConsistent orders) : TableConsistent (insertInto order orders) := by
  cases hf : find orders order.price with
  | none =>
    rw [insertInto_fresh order orders hf]
    have hk : order.price ∉ keys orders := (find_eq_none_iff _ _).1 hf
    constructor
    · simpa [UniqueKeys, keys] using And.intro (by simpa [keys] using hk) h.1
    · intro e he
      rcases List.mem_cons.1 he with rfl | he
      · rfl
      · exact h.2 e he
  | some v =>
    rw [insertInto_existing order v orders hf]
    constructor
    · exact uniqueKeys_update _ _ _ h.1
    · intro e he
      rcases mem_update _ _ _ _ he with he | ⟨w, hw, rfl⟩
      · exact h.2 e he
      · exact h.2 (order.price, w) hw

theorem consistent_insert (c : ConcurrentHashMap) (s : String) (o : Order)
    (h : Consistent c) : Consistent (insert c s o) := by
  constructor
  · exact uniqueKeys_update _ _ _ (uniqueKeys_subscript _ _ h.1)
  · intro pair hp
    have hsub : ∀ e ∈ subscript c.map_ s, TableConsistent e.2 := by
      intro e he
      rcases mem_subscript _ _ _ he with he | rfl
      · exact h.2 e he
      · exact ⟨List.nodup_nil, fun e he => absurd he (List.not_mem_nil e)⟩
    rcases mem_update _ _ _ _ hp with hp | ⟨w, hw, rfl⟩
    · exact hsub pair hp
    · exact tableConsistent_insertInto o w (hsub _ hw)

theorem consistent_remove (c : ConcurrentHashMap) (s : String)
    (h : Consistent c) : Consistent (remove c s).1 := by
  unfold Consistent
  rw [remove_map]
  exact ⟨uniqueKeys_erase _ _ h.1, fun pair hp => h.2 pair (mem_erase _ _ _ hp)⟩

theorem consistent_step (c : ConcurrentHashMap) (op : Op) (h : Consistent c) :
    Consistent (step c op) := by
  cases op with
  | insert s o => exact consistent_insert c s o h
  | remove s => exact consistent_remove c s h
  | display => exact h

theorem consistent_run (ops : List Op) (c : ConcurrentHashMap) (h : Consistent c) :
    Consistent (run c ops) := by
  induction ops generalizing c with
  | nil => exact h
  | cons op rest ih => exact ih (step c op) (consistent_step c op h)

theorem consistent_empty : Consistent empty :=
  ⟨List.nodup_nil, fun e he => absurd he (List.not_mem_nil e)⟩

theorem filter_length_le_one (t : PriceLevelTable) (p : CInt) (h : UniqueKeys t) :
    (t.filter (fun e => decide (e.1 = p))).length ≤ 1 := by
  induction t with
  | nil => simp
  | cons hd tl ih =>
    obtain ⟨k, v⟩ := hd
    have h' : k ∉ keys tl ∧ UniqueKeys tl := by
      simpa [UniqueKeys, keys] using h
    by_cases hk : k = p
    · subst hk
      have hnone : find tl k = none := (find_eq_none_iff tl k).2 h'.1
      simp [filter_of_find_none tl k hnone]
    · simpa [hk] using ih h'.2

/-- C6 (invariant I2): in every state reached from the empty store by a sequence of
`insert`, `remove` (and `display`) calls, the symbols are unique, each table has at most
one entry per price, the order stored under price key `p` has `price = p`, and the orders
enumerated for a symbol have pairwise different prices. -/
theorem reachable_one_entry_per_price (ops : List Op) :
    UniqueKeys (run empty ops).map_ ∧
    (∀ pair ∈ (run empty ops).map_, UniqueKeys pair.2 ∧ ∀ e ∈ pair.2, e.2.price = e.1) ∧
    (∀ s p, (entriesAt (run empty ops) s p).length ≤ 1) ∧
    (∀ s p o, level (run empty ops) s p = some o → o.price = p) ∧
    ∀ e ∈ enumerate (run empty ops), (e.2.map Order.price).Nodup := by
  have h := consistent_run ops empty consistent_empty
  refine ⟨h.1, h.2, ?_, ?_, ?_⟩
  · intro s p
    unfold entriesAt
    cases ht : table (run empty ops) s with
    | none => simp
    | some t =>
      have hm := mem_of_find_eq_some _ _ _ ht
      exact filter_length_le_one t p (h.2 _ hm).1
  · intro s p o ho
    unfold level at ho
    cases ht : table (run empty ops) s with
    | none => simp [ht] at ho
    | some t =>
      simp only [ht, Option.some_bind] at ho
      have hm := mem_of_find_eq_some _ _ _ ht
      exact (h.2 _ hm).2 _ (mem_of_find_eq_some _ _ _ ho)
  · intro e he
    simp only [enumerate, List.mem_map] at he
    obtain ⟨pair, hp, rfl⟩ := he
    have hc := h.2 pair hp
    have heq : (pair.2.map Prod.snd).map Order.price = keys pair.2 := by
      simp only [keys, List.map_map]
      apply List.map_congr_left
      intro e he
      exact hc.2 e he
    show ((pair.2.map Prod.snd).map Order.price).Nodup
    rw [heq]
    exact hc.1

/-! ## No validation, pure display, immortal locks -/

theorem level_insert_same (c : ConcurrentHashMap) (s : String) (o : Order) :
    level (insert c s o) s o.price =
      some (match level c s o.price with
        | some e => { e with lotSize := e.lotSize + o.lotSize }
        | none => o) := by
  rw [level_of_table c s o.price, level_of_table (insert c s o) s o.price, table_insert_same]
  exact find_insertInto_same o _

/-- C7: `insert` has no error result and no validation: whatever the sign of the order's
`lotSize` and `price`, the order is aggregated onto the entry at its price when there is
one and stored as it is otherwise, and the symbol has a table afterwards. `insert(s, 5, 2)`
then `insert(s, -5, 2)` leaves `{lotSize: 0, price: 2}`; `insert(s, 0, -1)` creates an
entry at price `-1`. -/
theorem insert_validates_nothing (c : ConcurrentHashMap) (s : String) (o : Order) :
    level (insert c s o) s o.price =
      some (match level c s o.price with
        | some e => { e with lotSize := e.lotSize + o.lotSize }
        | none => o) ∧
    table (insert c s o) s ≠ none ∧
    level (insert (insert empty "S" ⟨5, 2⟩) "S" ⟨CInt.ofInt (-5), 2⟩) "S" 2 = some ⟨0, 2⟩ ∧
    entriesAt (insert (insert empty "S" ⟨5, 2⟩) "S" ⟨CInt.ofInt (-5), 2⟩) "S" 2 =
      [(2, ⟨0, 2⟩)] ∧
    level (insert empty "S" ⟨0, CInt.ofInt (-1)⟩) "S" (CInt.ofInt (-1)) =
      some ⟨0, CInt.ofInt (-1)⟩ ∧
    (CInt.ofInt (-5)).val = -5 ∧ (CInt.ofInt (-1)).val = -1 ∧ (0 : CInt).val = 0 := by
  refine ⟨level_insert_same c s o, ?_, by decide, by decide, by decide, by decide, by decide,
    by decide⟩
  rw [table_insert_same]
  exact Option.some_ne_none _

/-- C8: `display()` leaves the symbol -> table mapping, the lock registry and the display
mutex as they were, so an operation that follows `display()` behaves as it does without
it. -/
theorem display_is_pure_read (c : ConcurrentHashMap) :
    (display c).1 = c ∧
    (display c).1.map_ = c.map_ ∧
    (display c).1.mutexMap_ = c.mutexMap_ ∧
    (∀ op, step (display c).1 op = step c op) ∧
    (∀ s, remove (display c).1 s = remove c s) ∧
    (display (display c).1).2 = (display c).2 :=
  ⟨rfl, rfl, rfl, fun _ => rfl, fun _ => rfl, rfl⟩

theorem find_subscript_of_mem {V : Type} [Inhabited V] (m : UnorderedMap String V)
    (s t : String) (ht : t ∈ keys m) :
    t ∈ keys (subscript m s) ∧ find (subscript m s) t = find m t := by
  refine ⟨(mem_keys_subscript m s t).2 (Or.inr ht), ?_⟩
  by_cases h : t = s
  · subst h
    rw [subscript_of_mem m t ht]
  · exact find_subscript_ne m s t h

/-- C9 (invariant I3): every symbol that has a lock entry before an operation (`insert`,
`remove` whether it succeeds or not, `display`) has the same entry after it; `remove(s)`
leaves `s` with a lock entry, and deletes the table of `s`. -/
theorem locks_are_immortal (c : ConcurrentHashMap) (op : Op) (t : String)
    (ht : t ∈ keys c.mutexMap_) :
    t ∈ keys (step c op).mutexMap_ ∧
    find (step c op).mutexMap_ t = find c.mutexMap_ t ∧
    (∀ s, s ∈ keys (remove c s).1.mutexMap_) ∧
    (∀ s, UniqueKeys c.map_ → table (remove c s).1 s = none) := by
  have hop : t ∈ keys (step c op).mutexMap_ ∧
      find (step c op).mutexMap_ t = find c.mutexMap_ t := by
    cases op with
    | insert s o => exact find_subscript_of_mem c.mutexMap_ s t ht
    | remove s =>
      show t ∈ keys (remove c s).1.mutexMap_ ∧ find (remove c s).1.mutexMap_ t = _
      rw [remove_mutexMap]
      exact find_subscript_of_mem c.mutexMap_ s t ht
    | display => exact ⟨ht, rfl⟩
  refine ⟨hop.1, hop.2, ?_, ?_⟩
  · intro s
    rw [remove_mutexMap]
    exact (mem_keys_subscript _ s s).2 (Or.inl rfl)
  · intro s hc
    unfold table
    rw [remove_map]
    exact find_erase_same c.map_ s hc

/-- Witness of `locks_are_immortal`: after `remove("NESTLEIND")` on the store of `main`,
NESTLEIND has no table and still has its lock entry. -/
theorem locks_are_immortal_witness :
    "NESTLEIND" ∈ keys mainInserted.mutexMap_ ∧
    table mainInserted "NESTLEIND" ≠ none ∧
    table (step mainInserted (Op.remove "NESTLEIND")) "NESTLEIND" = none ∧
    "NESTLEIND" ∈ keys (step mainInserted (Op.remove "NESTLEIND")).mutexMap_ ∧
    find (step mainInserted (Op.remove "NESTLEIND")).mutexMap_ "NESTLEIND" =
      find mainInserted.mutexMap_ "NESTLEIND" := by
  have h := locks_are_immortal mainInserted (Op.remove "NESTLEIND") "NESTLEIND" (by decide)
  exact ⟨by decide, by decide, h.2.2.2 "NESTLEIND" (by decide), h.1, h.2.1⟩

/-! ## Width of the order fields -/

theorem add_val_of_inRange (a b : CInt)
    (hlo : INT_MIN ≤ a.val + b.val) (hhi : a.val + b.val ≤ INT_MAX) :
    (a + b).val = a.val + b.val := by
  show wrap32 (a.val + b.val) = a.val + b.val
  unfold wrap32
  unfold INT_MIN at hlo
  unfold INT_MAX at hhi
  omega

theorem ofInt_val_of_inRange (x : Int) (hlo : INT_MIN ≤ x) (hhi : x ≤ INT_MAX) :
    (CInt.ofInt x).val = x := by
  show wrap32 x = x
  unfold wrap32
  unfold INT_MIN at hlo
  unfold INT_MAX at hhi
  omega

/-- C10, as stated, fails on the code: the fields are `int`. Aggregating
`a = b = 2^30`, whose sum `2^31` lies in the signed 64-bit range, stores `-2^31`; no
`int` has the value `2^31`, so neither a lot size nor a price `2^31` is stored
unchanged. -/
theorem aggregate_two_pow_30_overflows :
    (CInt.ofInt 1073741824).val = 1073741824 ∧
    level (insert (insert empty "X" ⟨CInt.ofInt 1073741824, 2⟩) "X"
      ⟨CInt.ofInt 1073741824, 2⟩) "X" 2 = some ⟨CInt.ofInt (-2147483648), 2⟩ ∧
    (CInt.ofInt (-2147483648)).val = -2147483648 ∧
    (CInt.ofInt (-2147483648)).val ≠ 1073741824 + 1073741824 ∧
    (¬ ∃ a : CInt, a.val = 2147483648) ∧
    (CInt.ofInt 2147483648).val = -2147483648 := by
  refine ⟨by decide, by decide, by decide, by decide, ?_, by decide⟩
  rintro ⟨a, ha⟩
  have h := a.hi
  rw [ha] at h
  revert h
  decide

/-- C10 (amended): the order fields are 32-bit `int`s. Aggregating an order onto the
entry `e` at its price stores the `int` sum of the two lot sizes, which is the integer
sum whenever that lies in the signed 32-bit range, and always lies in that range; an
order inserted at a fresh price is stored with its price unchanged, and every integer
of the signed 32-bit range is an `int` with that value. -/
theorem aggregate_within_int_range (c : ConcurrentHashMap) (s : String) (o e : Order)
    (he : level c s o.price = some e)
    (hlo : INT_MIN ≤ e.lotSize.val + o.lotSize.val)
    (hhi : e.lotSize.val + o.lotSize.val ≤ INT_MAX) :
    (∃ e' : Order, level (insert c s o) s o.price = some e' ∧
      e'.lotSize.val = e.lotSize.val + o.lotSize.val ∧ e'.price = e.price) ∧
    (∀ e' : Order, INT_MIN ≤ e'.lotSize.val ∧ e'.lotSize.val ≤ INT_MAX ∧
      INT_MIN ≤ e'.price.val ∧ e'.price.val ≤ INT_MAX) ∧
    (∀ (c' : ConcurrentHashMap) (s' : String) (o' : Order), level c' s' o'.price = none →
      level (insert c' s' o') s' o'.price = some o') ∧
    (∀ x : Int, INT_MIN ≤ x → x ≤ INT_MAX → (CInt.ofInt x).val = x) := by
  refine ⟨⟨{ e with lotSize := e.lotSize + o.lotSize }, ?_, ?_, rfl⟩, ?_, ?_, ?_⟩
  · rw [level_insert_same, he]
  · exact add_val_of_inRange e.lotSize o.lotSize hlo hhi
  · intro e'
    exact ⟨e'.lotSize.lo, e'.lotSize.hi, e'.price.lo, e'.price.hi⟩
  · intro c' s' o' h
    rw [level_insert_same, h]
  · exact ofInt_val_of_inRange

/-- Witness of `aggregate_within_int_range`: aggregating `2^30` onto `2^30 - 1` stores
`2^31 - 1`, the largest `int`. -/
theorem aggregate_within_int_range_witness :
    level (insert empty "X" ⟨CInt.ofInt 1073741823, 2⟩) "X" 2 =
      some ⟨CInt.ofInt 1073741823, 2⟩ ∧
    (CInt.ofInt 1073741823).val + (CInt.ofInt 1073741824).val = INT_MAX ∧
    ∃ e' : Order,
      level (insert (insert empty "X" ⟨CInt.ofInt 1073741823, 2⟩) "X"
        ⟨CInt.ofInt 1073741824, 2⟩) "X" 2 = some e' ∧
      e'.lotSize.val = (CInt.ofInt 1073741823).val + (CInt.ofInt 1073741824).val ∧
      e'.price = 2 :=
  ⟨by decide, by decide,
   (aggregate_within_int_range (insert empty "X" ⟨CInt.ofInt 1073741823, 2⟩) "X"
      ⟨CInt.ofInt 1073741824, 2⟩ ⟨CInt.ofInt 1073741823, 2⟩
      (by decide) (by decide) (by decide)).1⟩

/-! ## The lock registry -/

/-- C14: after `insert(s, o)` or `remove(s)` the key set of the lock registry is the
previous key set with `s` added and nothing else; when `s` already had a lock the
registry is unchanged; a lock entry for `s` exists afterwards in every case, also when
`remove(s)` reports not-found for a symbol never seen (as for `remove("NONEXISTENT")` on
the empty store). -/
theorem lock_resolution_creates_if_absent (c : ConcurrentHashMap) (s : String) (o : Order) :
    (∀ t, t ∈ keys (insert c s o).mutexMap_ ↔ t = s ∨ t ∈ keys c.mutexMap_) ∧
    (∀ t, t ∈ keys (remove c s).1.mutexMap_ ↔ t = s ∨ t ∈ keys c.mutexMap_) ∧
    (s ∈ keys c.mutexMap_ →
      (insert c s o).mutexMap_ = c.mutexMap_ ∧ (remove c s).1.mutexMap_ = c.mutexMap_) ∧
    (s ∉ keys c.mutexMap_ →
      (insert c s o).mutexMap_ = (s, SharedMutex.unlocked) :: c.mutexMap_ ∧
      (remove c s).1.mutexMap_ = (s, SharedMutex.unlocked) :: c.mutexMap_) ∧
    (reportsNotFound "NONEXISTENT" (remove empty "NONEXISTENT").2 ∧
      keys (remove empty "NONEXISTENT").1.mutexMap_ = ["NONEXISTENT"]) := by
  have hi : (insert c s o).mutexMap_ = subscript c.mutexMap_ s := rfl
  have hr : (remove c s).1.mutexMap_ = subscript c.mutexMap_ s := remove_mutexMap c s
  refine ⟨?_, ?_, ?_, ?_, by decide, by decide⟩
  · intro t
    rw [hi]
    exact mem_keys_subscript c.mutexMap_ s t
  · intro t
    rw [hr]
    exact mem_keys_subscript c.mutexMap_ s t
  · intro hs
    rw [hi, hr, subscript_of_mem c.mutexMap_ s hs]
    exact ⟨rfl, rfl⟩
  · intro hs
    have hnone : find c.mutexMap_ s = none := (find_eq_none_iff _ _).2 hs
    have hsub : subscript c.mutexMap_ s = (s, SharedMutex.unlocked) :: c.mutexMap_ := by
      unfold subscript
      rw [hnone]
    rw [hi, hr, hsub]
    exact ⟨rfl, rfl⟩

theorem coindexed_step (c : ConcurrentHashMap) (op : Op)
    (h : ∀ s, s ∈ keys c.map_ → s ∈ keys c.mutexMap_) :
    ∀ s, s ∈ keys (step c op).map_ → s ∈ keys (step c op).mutexMap_ := by
  intro s hs
  cases op with
  | insert t o =>
    have hm : (insert c t o).mutexMap_ = subscript c.mutexMap_ t := rfl
    have hk : keys (insert c t o).map_ = keys (subscript c.map_ t) := keys_update _ _ _
    change s ∈ keys (insert c t o).map_ at hs
    change s ∈ keys (insert c t o).mutexMap_
    rw [hk] at hs
    rw [hm]
    rcases (mem_keys_subscript c.map_ t s).1 hs with h1 | h1
    · exact (mem_keys_subscript _ t s).2 (Or.inl h1)
    · exact (mem_keys_subscript _ t s).2 (Or.inr (h s h1))
  | remove t =>
    change s ∈ keys (remove c t).1.map_ at hs
    change s ∈ keys (remove c t).1.mutexMap_
    rw [remove_map] at hs
    rw [remove_mutexMap]
    exact (mem_keys_subscript _ t s).2 (Or.inr (h s (mem_keys_erase _ _ _ hs)))
  | display => exact h s hs

theorem coindexed_run (ops : List Op) (c : ConcurrentHashMap)
    (h : ∀ s, s ∈ keys c.map_ → s ∈ keys c.mutexMap_) :
    ∀ s, s ∈ keys (run c ops).map_ → s ∈ keys (run c ops).mutexMap_ := by
  induction ops generalizing c with
  | nil => exact h
  | cons op rest ih => exact ih (step c op) (coindexed_step c op h)

/-- C15: in every state reached from the empty store by `insert`, `remove` and `display`
calls, every symbol that has a table in the store has a lock entry in the registry. -/
theorem reachable_tables_have_locks (ops : List Op) :
    (∀ s, s ∈ keys (run empty ops).map_ → s ∈ keys (run empty ops).mutexMap_) ∧
    (∀ s, table (run empty ops) s ≠ none → find (run empty ops).mutexMap_ s ≠ none) := by
  have h := coindexed_run ops empty (fun s hs => absurd hs (List.not_mem_nil s))
  refine ⟨h, ?_⟩
  intro s hs hn
  have h1 : s ∈ keys (run empty ops).map_ := by
    by_contra hc
    exact hs ((find_eq_none_iff _ _).2 hc)
  exact (find_eq_none_iff _ _).1 hn (h s h1)

/-! ## No empty tables -/

theorem mem_update_of_uniqueKeys {K V : Type} [DecidableEq K] (m : UnorderedMap K V) (k : K)
    (f : V → V) (e : K × V) (hm : UniqueKeys m) (h : e ∈ update m k f) :
    (e ∈ m ∧ e.1 ≠ k) ∨ ∃ v, (k, v) ∈ m ∧ e = (k, f v) := by
  induction m with
  | nil => simp [update] at h
  | cons hd tl ih =>
    obtain ⟨k', v⟩ := hd
    have hm' : k' ∉ keys tl ∧ UniqueKeys tl := by
      simpa [UniqueKeys, keys] using hm
    by_cases h' : k' = k
    · subst h'
      simp only [update, if_true, List.mem_cons] at h
      rcases h with h | h
      · exact Or.inr ⟨v, List.mem_cons_self _ _, h⟩
      · refine Or.inl ⟨List.mem_cons_of_mem _ h, ?_⟩
        intro he
        apply hm'.1
        rw [← he]
        exact List.mem_map_of_mem Prod.fst h
    · simp only [update, h', if_false, List.mem_cons] at h
      rcases h with h | h
      · subst h
        exact Or.inl ⟨List.mem_cons_self _ _, h'⟩
      · rcases ih hm'.2 h with ⟨h2, h3⟩ | ⟨w, hw, he⟩
        · exact Or.inl ⟨List.mem_cons_of_mem _ h2, h3⟩
        · exact Or.inr ⟨w, List.mem_cons_of_mem _ hw, he⟩

theorem insertInto_ne_nil (order : Order) (orders : PriceLevelTable) :
    insertInto order orders ≠ [] := by
  cases hf : find orders order.price with
  | none =>
    rw [insertInto_fresh order orders hf]
    exact List.cons_ne_nil _ _
  | some v =>
    rw [insertInto_existing order v orders hf]
    intro hnil
    have hlen := length_update orders order.price
      (fun e => { e with lotSize := e.lotSize + order.lotSize })
    rw [hnil] at hlen
    have : orders = [] := List.eq_nil_of_length_eq_zero hlen.symm
    rw [this] at hf
    simp [find] at hf

theorem nonempty_step (c : ConcurrentHashMap) (op : Op) (hc : Consistent c)
    (h : ∀ pair ∈ c.map_, pair.2 ≠ []) : ∀ pair ∈ (step c op).map_, pair.2 ≠ [] := by
  intro pair hp
  cases op with
  | insert s o =>
    change pair ∈ update (subscript c.map_ s) s (insertInto o) at hp
    rcases mem_update_of_uniqueKeys _ _ _ _ (uniqueKeys_subscript _ _ hc.1) hp with
      ⟨h1, h2⟩ | ⟨w, _, rfl⟩
    · rcases mem_subscript _ _ _ h1 with h3 | h3
      · exact h pair h3
      · exact absurd (congrArg Prod.fst h3) h2
    · exact insertInto_ne_nil o w
  | remove s =>
    change pair ∈ (remove c s).1.map_ at hp
    rw [remove_map] at hp
    exact h pair (mem_erase _ _ _ hp)
  | display => exact h pair hp

theorem nonempty_run (ops : List Op) (c : ConcurrentHashMap) (hc : Consistent c)
    (h : ∀ pair ∈ c.map_, pair.2 ≠ []) : ∀ pair ∈ (run c ops).map_, pair.2 ≠ [] := by
  induction ops generalizing c with
  | nil => exact h
  | cons op rest ih =>
    exact ih (step c op) (consistent_step c op hc) (nonempty_step c op hc h)

theorem table_isSome_iff_level (c : ConcurrentHashMap) (h : ∀ pair ∈ c.map_, pair.2 ≠ [])
    (s : String) : table c s ≠ none ↔ ∃ p o, level c s p = some o := by
  constructor
  · intro hs
    cases ht : table c s with
    | none => exact absurd ht hs
    | some t =>
      have hne := h (s, t) (mem_of_find_eq_some _ _ _ ht)
      cases t with
      | nil => exact absurd rfl hne
      | cons hd tl =>
        refine ⟨hd.1, hd.2, ?_⟩
        simp [level, ht, find]
  · rintro ⟨p, o, hl⟩ hn
    simp [level, hn] at hl

/-- C18: in every state reached from the empty store by `insert`, `remove` and `display`
calls, every table of the store has at least one price level; a symbol has a table
exactly when it has an order at some price, and `display` enumerates no symbol with an
empty list of orders. -/
theorem reachable_tables_nonempty (ops : List Op) :
    (∀ pair ∈ (run empty ops).map_, pair.2 ≠ []) ∧
    (∀ s, table (run empty ops) s ≠ none ↔ ∃ p o, level (run empty ops) s p = some o) ∧
    (∀ e ∈ enumerate (run empty ops), e.2 ≠ []) := by
  have h := nonempty_run ops empty consistent_empty
    (fun pair hp => absurd hp (List.not_mem_nil pair))
  refine ⟨h, table_isSome_iff_level _ h, ?_⟩
  intro e he
  simp only [enumerate, List.mem_map] at he
  obtain ⟨pair, hp, rfl⟩ := he
  intro hnil
  exact h pair hp (List.map_eq_nil_iff.1 hnil)

/-! ## Inserts over a history -/

theorem cint_eq_of_val_eq (a b : CInt) (h : a.val = b.val) : a = b := by
  cases a
  cases b
  simp only at h
  subst h
  rfl

theorem cint_add_val (a b : CInt) : (a + b).val = wrap32 (a.val + b.val) := rfl

theorem cint_add_comm (a b : CInt) : a + b = b + a := by
  apply cint_eq_of_val_eq
  rw [cint_add_val, cint_add_val, Int.add_comm]

theorem cint_add_right_comm (a b d : CInt) : a + b + d = a + d + b := by
  apply cint_eq_of_val_eq
  simp only [cint_add_val]
  unfold wrap32
  omega

theorem level_insert (c : ConcurrentHashMap) (t : String) (o : Order) (s : String)
    (p : CInt) : level (insert c t o) s p = levelAfterInsert s p (level c s p) (t, o) := by
  by_cases hs : t = s
  · subst hs
    by_cases hp : o.price = p
    · subst hp
      simp [levelAfterInsert, level_insert_same]
    · have hp' : p ≠ o.price := fun e => hp e.symm
      rw [level_of_table c t p, level_of_table (insert c t o) t p, table_insert_same]
      simp [levelAfterInsert, hp, find_insertInto_ne o _ p hp']
  · have hs' : s ≠ t := fun e => hs e.symm
    simp [levelAfterInsert, hs, level, table_insert_ne c t s o hs']

theorem levelAfterInsert_comm (s : String) (p : CInt) (l : Option Order)
    (c1 c2 : String × Order) :
    levelAfterInsert s p (levelAfterInsert s p l c1) c2 =
      levelAfterInsert s p (levelAfterInsert s p l c2) c1 := by
  obtain ⟨s1, o1⟩ := c1
  obtain ⟨s2, o2⟩ := c2
  by_cases h1 : s1 = s ∧ o1.price = p
  · by_cases h2 : s2 = s ∧ o2.price = p
    · cases l with
      | none =>
        obtain ⟨l1, p1⟩ := o1
        obtain ⟨l2, p2⟩ := o2
        obtain ⟨_, hp1⟩ := h1
        obtain ⟨_, hp2⟩ := h2
        simp only at hp1 hp2
        subst hp1
        subst hp2
        simp [levelAfterInsert, *, cint_add_comm l1 l2]
      | some e =>
        simp [levelAfterInsert, h1, h2, cint_add_right_comm e.lotSize o1.lotSize o2.lotSize]
    · simp [levelAfterInsert, h1, h2]
  · by_cases h2 : s2 = s ∧ o2.price = p
    · simp [levelAfterInsert, h1, h2]
    · simp [levelAfterInsert, h1, h2]

theorem table_insert_isSome (c : ConcurrentHashMap) (t : String) (o : Order) (s : String) :
    (table (insert c t o) s).isSome = (decide (t = s) || (table c s).isSome) := by
  by_cases hs : t = s
  · subst hs
    simp [table_insert_same]
  · have hs' : s ≠ t := fun e => hs e.symm
    simp [hs, table_insert_ne c t s o hs']

/-- C17: two `insert` calls commute: applied to any store in either order they give the
same order at every symbol and price, the same set of symbols that have a table, and the
same key set of the lock registry. -/
theorem inserts_commute (c : ConcurrentHashMap) (s1 s2 : String) (o1 o2 : Order) :
    (∀ s p, level (insert (insert c s1 o1) s2 o2) s p =
      level (insert (insert c s2 o2) s1 o1) s p) ∧
    (∀ s, (table (insert (insert c s1 o1) s2 o2) s).isSome =
      (table (insert (insert c s2 o2) s1 o1) s).isSome) ∧
    (∀ t, t ∈ keys (insert (insert c s1 o1) s2 o2).mutexMap_ ↔
      t ∈ keys (insert (insert c s2 o2) s1 o1).mutexMap_) := by
  refine ⟨?_, ?_, ?_⟩
  · intro s p
    rw [level_insert, level_insert, level_insert, level_insert]
    exact levelAfterInsert_comm s p (level c s p) (s1, o1) (s2, o2)
  · intro s
    rw [table_insert_isSome, table_insert_isSome, table_insert_isSome, table_insert_isSome]
    cases decide (s1 = s) <;> cases decide (s2 = s) <;> simp
  · intro t
    have e1 : (insert (insert c s1 o1) s2 o2).mutexMap_ =
        subscript (subscript c.mutexMap_ s1) s2 := rfl
    have e2 : (insert (insert c s2 o2) s1 o1).mutexMap_ =
        subscript (subscript c.mutexMap_ s2) s1 := rfl
    rw [e1, e2]
    simp only [mem_keys_subscript]
    tauto

theorem level_runInserts (calls : List (String × Order)) (c : ConcurrentHashMap)
    (s : String) (p : CInt) :
    level (runInserts c calls) s p = calls.foldl (levelAfterInsert s p) (level c s p) := by
  induction calls generalizing c with
  | nil => rfl
  | cons call rest ih =>
    show level (runInserts (insert c call.1 call.2) rest) s p = _
    rw [ih, level_insert]
    rfl

theorem lotSizeSum_cons_of_match (call : String × Order) (rest : List (String × Order))
    (s : String) (p : CInt) (h : call.1 = s ∧ call.2.price = p) :
    lotSizeSum (call :: rest) s p = call.2.lotSize.val + lotSizeSum rest s p := by
  simp [lotSizeSum, callsAt, List.filter_cons, h]

theorem lotSizeSum_cons_of_not_match (call : String × Order) (rest : List (String × Order))
    (s : String) (p : CInt) (h : ¬ (call.1 = s ∧ call.2.price = p)) :
    lotSizeSum (call :: rest) s p = lotSizeSum rest s p := by
  simp [lotSizeSum, callsAt, List.filter_cons, h]

theorem foldl_levelAfterInsert_some (calls : List (String × Order)) (s : String) (p : CInt)
    (e : Order) :
    ∃ e' : Order, calls.foldl (levelAfterInsert s p) (some e) = some e' ∧
      e'.price = e.price ∧ e'.lotSize.val = wrap32 (e.lotSize.val + lotSizeSum calls s p) := by
  induction calls generalizing e with
  | nil =>
    refine ⟨e, rfl, rfl, ?_⟩
    have h1 := e.lotSize.lo
    have h2 := e.lotSize.hi
    unfold INT_MIN at h1
    unfold INT_MAX at h2
    simp only [lotSizeSum, callsAt, List.filter_nil, List.map_nil, List.sum_nil]
    unfold wrap32
    omega
  | cons call rest ih =>
    by_cases h : call.1 = s ∧ call.2.price = p
    · obtain ⟨e', h1, h2, h3⟩ := ih { e with lotSize := e.lotSize + call.2.lotSize }
      refine ⟨e', ?_, h2, ?_⟩
      · simpa [List.foldl, levelAfterInsert, h] using h1
      · rw [h3, lotSizeSum_cons_of_match call rest s p h]
        show wrap32 (wrap32 (e.lotSize.val + call.2.lotSize.val) + lotSizeSum rest s p) = _
        unfold wrap32
        omega
    · obtain ⟨e', h1, h2, h3⟩ := ih e
      refine ⟨e', ?_, h2, ?_⟩
      · simpa [List.foldl, levelAfterInsert, h] using h1
      · rw [h3, lotSizeSum_cons_of_not_match call rest s p h]

theorem foldl_levelAfterInsert_none (calls : List (String × Order)) (s : String) (p : CInt) :
    (callsAt calls s p = [] → calls.foldl (levelAfterInsert s p) none = none) ∧
    (callsAt calls s p ≠ [] → ∃ e' : Order,
      calls.foldl (levelAfterInsert s p) none = some e' ∧
      e'.price = p ∧ e'.lotSize.val = wrap32 (lotSizeSum calls s p)) := by
  induction calls with
  | nil => simp [callsAt]
  | cons call rest ih =>
    by_cases h : call.1 = s ∧ call.2.price = p
    · constructor
      · intro hnil
        simp [callsAt, List.filter_cons, h] at hnil
      · intro _
        obtain ⟨e', h1, h2, h3⟩ := foldl_levelAfterInsert_some rest s p call.2
        refine ⟨e', ?_, ?_, ?_⟩
        · simpa [List.foldl, levelAfterInsert, h] using h1
        · rw [h2]; exact h.2
        · rw [h3, lotSizeSum_cons_of_match call rest s p h]
    · have hc : callsAt (call :: rest) s p = callsAt rest s p := by
        simp [callsAt, List.filter_cons, h]
      have hf : (call :: rest).foldl (levelAfterInsert s p) none =
          rest.foldl (levelAfterInsert s p) none := by
        simp [List.foldl, levelAfterInsert, h]
      rw [hc, hf, lotSizeSum_cons_of_not_match call rest s p h]
      exact ih

theorem callsAt_ne_nil_iff (calls : List (String × Order)) (s : String) (p : CInt) :
    callsAt calls s p ≠ [] ↔ ∃ call ∈ calls, call.1 = s ∧ call.2.price = p := by
  unfold callsAt
  rw [Ne, List.filter_eq_nil_iff]
  simp

/-- C16, as stated, fails on the code: after `insert("X", 2147483647, 2)` and
`insert("X", 1, 2)` on the empty store, the entry at `("X", 2)` has `lotSize`
`-2147483648`, while the lot sizes of the calls sum to `2147483648`. -/
theorem insert_history_sum_overflows :
    level (runInserts empty [("X", ⟨CInt.ofInt 2147483647, 2⟩), ("X", ⟨1, 2⟩)]) "X" 2 =
      some ⟨CInt.ofInt (-2147483648), 2⟩ ∧
    (CInt.ofInt (-2147483648)).val = -2147483648 ∧
    lotSizeSum [("X", ⟨CInt.ofInt 2147483647, 2⟩), ("X", ⟨1, 2⟩)] "X" 2 = 2147483648 ∧
    ¬ ∃ e : Order,
      level (runInserts empty [("X", ⟨CInt.ofInt 2147483647, 2⟩), ("X", ⟨1, 2⟩)]) "X" 2 =
        some e ∧
      e.lotSize.val = lotSizeSum [("X", ⟨CInt.ofInt 2147483647, 2⟩), ("X", ⟨1, 2⟩)] "X" 2 := by
  have h1 : level (runInserts empty [("X", ⟨CInt.ofInt 2147483647, 2⟩), ("X", ⟨1, 2⟩)])
      "X" 2 = some ⟨CInt.ofInt (-2147483648), 2⟩ := by decide
  have h2 : lotSizeSum [("X", ⟨CInt.ofInt 2147483647, 2⟩), ("X", ⟨1, 2⟩)] "X" 2 =
      2147483648 := by decide
  refine ⟨h1, by decide, h2, ?_⟩
  rintro ⟨e, he, hv⟩
  rw [h1] at he
  rw [h2, ← Option.some.inj he] at hv
  revert hv
  decide

/-- C16 (amended): for every finite sequence of `insert` calls applied one after another
to the empty store, and every symbol `s` and price `p`, the store has an entry at
`(s, p)` if and only if some call inserted at `(s, p)`; that entry has price `p` and its
`lotSize` is the sum of the lot sizes of the calls that inserted at `(s, p)` reduced
modulo `2^32` into the range of `int`, which is the sum itself whenever the sum lies in
that range. -/
theorem insert_history_aggregates (calls : List (String × Order)) (s : String) (p : CInt) :
    ((∃ e, level (runInserts empty calls) s p = some e) ↔
      ∃ call ∈ calls, call.1 = s ∧ call.2.price = p) ∧
    (∀ e, level (runInserts empty calls) s p = some e →
      e.price = p ∧ e.lotSize.val = wrap32 (lotSizeSum calls s p)) ∧
    (∀ e, level (runInserts empty calls) s p = some e →
      INT_MIN ≤ lotSizeSum calls s p → lotSizeSum calls s p ≤ INT_MAX →
      e.lotSize.val = lotSizeSum calls s p) := by
  have hl : level (runInserts empty calls) s p = calls.foldl (levelAfterInsert s p) none :=
    level_runInserts calls empty s p
  have hf := foldl_levelAfterInsert_none calls s p
  have hmain : ∀ e, level (runInserts empty calls) s p = some e →
      e.price = p ∧ e.lotSize.val = wrap32 (lotSizeSum calls s p) := by
    intro e he
    rw [hl] at he
    by_cases hnil : callsAt calls s p = []
    · rw [hf.1 hnil] at he
      exact Option.noConfusion he
    · obtain ⟨e', h1, h2, h3⟩ := hf.2 hnil
      rw [h1] at he
      have : e' = e := Option.some.inj he
      subst this
      exact ⟨h2, h3⟩
  refine ⟨?_, hmain, ?_⟩
  · rw [← callsAt_ne_nil_iff, hl]
    constructor
    · rintro ⟨e, he⟩ hnil
      rw [hf.1 hnil] at he
      exact Option.noConfusion he
    · intro hne
      obtain ⟨e', h1, _, _⟩ := hf.2 hne
      exact ⟨e', h1⟩
  · intro e he hlo hhi
    rw [(hmain e he).2]
    unfold INT_MIN at hlo
    unfold INT_MAX at hhi
    unfold wrap32
    omega

/-- Witness of `insert_history_aggregates`: after the `insert` calls of `main`, the
entry of NESTLEIND at price 2 is `{lotSize: 30, price: 2}`, the sum of 10 and 20. -/
theorem insert_history_aggregates_witness :
    lotSizeSum mainCalls "NESTLEIND" 2 = 30 ∧
    runInserts empty mainCalls = mainInserted ∧
    level (runInserts empty mainCalls) "NESTLEIND" 2 = some ⟨30, 2⟩ ∧
    (∀ e, level (runInserts empty mainCalls) "NESTLEIND" 2 = some e →
      e.price = 2 ∧ e.lotSize.val = wrap32 (lotSizeSum mainCalls "NESTLEIND" 2)) :=
  ⟨by decide, by decide, by decide,
   (insert_history_aggregates mainCalls "NESTLEIND" 2).2.1⟩

/-! ## Locking discipline -/

theorem accessesUnderSymbolLock_reads (held : List (MutexRef × LockMode))
    (hheld : ∀ h ∈ held, ∀ s, h.1 ≠ MutexRef.ofSymbol s)
    (m : UnorderedMap String PriceLevelTable) (rest : List Event) (hm : m ≠ []) :
    accessesUnderSymbolLock held (m.map (fun pair => Event.readTable pair.1) ++ rest) =
      false := by
  cases m with
  | nil => exact absurd rfl hm
  | cons hd tl =>
    have hany : held.any (fun h => decide (h.1 = MutexRef.ofSymbol hd.1)) = false := by
      rw [List.any_eq_false]
      intro h hmem
      simpa using hheld h hmem hd.1
    simp [accessesUnderSymbolLock, hany]

/-- C12 on the code: `insert` and `remove` access the table of their symbol only while
holding that symbol's lock exclusively, but `display` reads the table of every symbol
while holding `displayMutex_` only. On the store holding the one order
`insert("X", 10, 2)`, `display` reads the table of X with no lock of X held; the same
happens on every store that has a symbol. -/
theorem display_reads_without_symbol_lock :
    displayEvents (insert empty "X" ⟨10, 2⟩) =
      [Event.acquire MutexRef.displayMutex LockMode.shared, Event.readTable "X",
       Event.release MutexRef.displayMutex] ∧
    accessesUnderSymbolLock [] (displayEvents (insert empty "X" ⟨10, 2⟩)) = false ∧
    (∀ c : ConcurrentHashMap, c.map_ ≠ [] →
      accessesUnderSymbolLock [] (displayEvents c) = false) ∧
    (∀ s, accessesUnderSymbolLock [] (insertEvents s) = true) ∧
    (∀ c s, accessesUnderSymbolLock [] (removeEvents c s) = true) := by
  refine ⟨by decide, by decide, ?_, ?_, ?_⟩
  · intro c hc
    unfold displayEvents
    rw [List.append_assoc, List.singleton_append]
    simp only [accessesUnderSymbolLock]
    apply accessesUnderSymbolLock_reads _ _ _ _ hc
    intro h hmem s
    simp only [List.mem_singleton] at hmem
    subst hmem
    simp
  · intro s
    simp [insertEvents, accessesUnderSymbolLock]
  · intro c s
    unfold removeEvents
    cases table c s <;> simp [accessesUnderSymbolLock]

/-! ## Order of enumeration -/

theorem find_eq_some_of_mem {K V : Type} [DecidableEq K] (m : UnorderedMap K V) (k : K)
    (v : V) (hm : UniqueKeys m) (h : (k, v) ∈ m) : find m k = some v := by
  induction m with
  | nil => exact absurd h (List.not_mem_nil _)
  | cons hd tl ih =>
    obtain ⟨k', w⟩ := hd
    have hm' : k' ∉ keys tl ∧ UniqueKeys tl := by
      simpa [UniqueKeys, keys] using hm
    rcases List.mem_cons.1 h with h | h
    · cases h
      simp [find]
    · have hk : k' ≠ k := by
        intro e
        apply hm'.1
        rw [e]
        exact List.mem_map_of_mem Prod.fst h
      simpa [find, hk] using ih hm'.2 h

theorem perm_of_find_eq {K V : Type} [DecidableEq K] (m1 m2 : UnorderedMap K V)
    (h1 : UniqueKeys m1) (h2 : UniqueKeys m2) (h : ∀ k, find m1 k = find m2 k) :
    List.Perm m1 m2 := by
  have n1 : m1.Nodup := List.Nodup.of_map Prod.fst h1
  have n2 : m2.Nodup := List.Nodup.of_map Prod.fst h2
  rw [List.perm_ext_iff_of_nodup n1 n2]
  rintro ⟨k, v⟩
  constructor
  · intro hm
    have := find_eq_some_of_mem m1 k v h1 hm
    rw [h k] at this
    exact mem_of_find_eq_some m2 k v this
  · intro hm
    have := find_eq_some_of_mem m2 k v h2 hm
    rw [← h k] at this
    exact mem_of_find_eq_some m1 k v this

theorem mem_keys_iff_level (c : ConcurrentHashMap) (h : ∀ pair ∈ c.map_, pair.2 ≠ [])
    (s : String) : s ∈ keys c.map_ ↔ ∃ p o, level c s p = some o := by
  rw [← table_isSome_iff_level c h s]
  unfold table
  constructor
  · intro hs hn
    exact (find_eq_none_iff _ _).1 hn hs
  · intro hs
    by_contra hc
    exact hs ((find_eq_none_iff _ _).2 hc)

/-- C11, as stated, fails on the code: the two stores reached by `insert("A", 10, 2)`,
`insert("B", 10, 2)` and by the same calls in the other order hold the same orders at
every symbol and price, and `display` lists B before A for the first and A before B for
the second; likewise the price levels 2 and 4 of one symbol are listed in an order that
depends on which was inserted first. -/
theorem enumeration_order_depends_on_history :
    (∀ s p, level (insert (insert empty "A" ⟨10, 2⟩) "B" ⟨10, 2⟩) s p =
      level (insert (insert empty "B" ⟨10, 2⟩) "A" ⟨10, 2⟩) s p) ∧
    enumerate (insert (insert empty "A" ⟨10, 2⟩) "B" ⟨10, 2⟩) =
      [("B", [⟨10, 2⟩]), ("A", [⟨10, 2⟩])] ∧
    enumerate (insert (insert empty "B" ⟨10, 2⟩) "A" ⟨10, 2⟩) =
      [("A", [⟨10, 2⟩]), ("B", [⟨10, 2⟩])] ∧
    (display (insert (insert empty "A" ⟨10, 2⟩) "B" ⟨10, 2⟩)).2 =
      "B: \x7blotSize: 10, price: 2\x7d \nA: \x7blotSize: 10, price: 2\x7d \n" ∧
    (display (insert (insert empty "B" ⟨10, 2⟩) "A" ⟨10, 2⟩)).2 =
      "A: \x7blotSize: 10, price: 2\x7d \nB: \x7blotSize: 10, price: 2\x7d \n" ∧
    (∀ s p, level (insert (insert empty "A" ⟨10, 2⟩) "A" ⟨15, 4⟩) s p =
      level (insert (insert empty "A" ⟨15, 4⟩) "A" ⟨10, 2⟩) s p) ∧
    enumerate (insert (insert empty "A" ⟨10, 2⟩) "A" ⟨15, 4⟩) =
      [("A", [⟨15, 4⟩, ⟨10, 2⟩])] ∧
    enumerate (insert (insert empty "A" ⟨15, 4⟩) "A" ⟨10, 2⟩) =
      [("A", [⟨10, 2⟩, ⟨15, 4⟩])] := by
  refine ⟨?_, by decide, by decide, by decide, by decide, ?_, by decide, by decide⟩
  · intro s p
    rw [level_insert, level_insert, level_insert, level_insert]
    exact levelAfterInsert_comm s p _ _ _
  · intro s p
    rw [level_insert, level_insert, level_insert, level_insert]
    exact levelAfterInsert_comm s p _ _ _

/-- C11 (amended): `display` lists every symbol of the store once and every price level
of a symbol once, in the iteration order of the unordered maps. Two stores reached from
the empty store that hold the same orders at every symbol and price are enumerated with
the same symbols and, for each symbol, the same orders, up to a permutation of the
symbols and of the price levels of each symbol. -/
theorem enumeration_same_up_to_order (ops1 ops2 : List Op)
    (h : ∀ s p, level (run empty ops1) s p = level (run empty ops2) s p) :
    ((enumerate (run empty ops1)).map Prod.fst).Nodup ∧
    (∀ e ∈ enumerate (run empty ops1), (e.2.map Order.price).Nodup) ∧
    List.Perm ((enumerate (run empty ops1)).map Prod.fst)
      ((enumerate (run empty ops2)).map Prod.fst) ∧
    (∀ e1 ∈ enumerate (run empty ops1), ∀ e2 ∈ enumerate (run empty ops2),
      e1.1 = e2.1 → List.Perm e1.2 e2.2) := by
  have c1 := consistent_run ops1 empty consistent_empty
  have c2 := consistent_run ops2 empty consistent_empty
  have ne1 := nonempty_run ops1 empty consistent_empty
    (fun pair hp => absurd hp (List.not_mem_nil pair))
  have ne2 := nonempty_run ops2 empty consistent_empty
    (fun pair hp => absurd hp (List.not_mem_nil pair))
  have hk : ∀ c : ConcurrentHashMap, (enumerate c).map Prod.fst = keys c.map_ := by
    intro c
    simp [enumerate, keys, List.map_map, Function.comp_def]
  refine ⟨?_, ?_, ?_, ?_⟩
  · rw [hk]
    exact c1.1
  · intro e he
    simp only [enumerate, List.mem_map] at he
    obtain ⟨pair, hp, rfl⟩ := he
    have hc := c1.2 pair hp
    have heq : (pair.2.map Prod.snd).map Order.price = keys pair.2 := by
      simp only [keys, List.map_map]
      apply List.map_congr_left
      intro e he
      exact hc.2 e he
    show ((pair.2.map Prod.snd).map Order.price).Nodup
    rw [heq]
    exact hc.1
  · rw [hk, hk, List.perm_ext_iff_of_nodup c1.1 c2.1]
    intro s
    rw [mem_keys_iff_level _ ne1, mem_keys_iff_level _ ne2]
    simp only [h]
  · intro e1 he1 e2 he2 heq
    simp only [enumerate, List.mem_map] at he1 he2
    obtain ⟨p1, hp1, rfl⟩ := he1
    obtain ⟨p2, hp2, rfl⟩ := he2
    obtain ⟨s1, t1⟩ := p1
    obtain ⟨s2, t2⟩ := p2
    simp only at heq
    subst heq
    have ht1 : table (run empty ops1) s1 = some t1 := find_eq_some_of_mem _ _ _ c1.1 hp1
    have ht2 : table (run empty ops2) s1 = some t2 := find_eq_some_of_mem _ _ _ c2.1 hp2
    have hfind : ∀ p, find t1 p = find t2 p := by
      intro p
      have := h s1 p
      simpa [level, ht1, ht2] using this
    exact (perm_of_find_eq t1 t2 (c1.2 _ hp1).1 (c2.2 _ hp2).1 hfind).map Prod.snd

/-- Witness of `enumeration_same_up_to_order`: the stores reached by inserting for A then
B and for B then A hold the same orders and list the same two symbols, in different
orders. -/
theorem enumeration_same_up_to_order_witness :
    (∀ s p, level (run empty [Op.insert "A" ⟨10, 2⟩, Op.insert "B" ⟨10, 2⟩]) s p =
      level (run empty [Op.insert "B" ⟨10, 2⟩, Op.insert "A" ⟨10, 2⟩]) s p) ∧
    List.Perm
      ((enumerate (run empty [Op.insert "A" ⟨10, 2⟩, Op.insert "B" ⟨10, 2⟩])).map Prod.fst)
      ((enumerate (run empty [Op.insert "B" ⟨10, 2⟩, Op.insert "A" ⟨10, 2⟩])).map Prod.fst) ∧
    (enumerate (run empty [Op.insert "A" ⟨10, 2⟩, Op.insert "B" ⟨10, 2⟩])).map Prod.fst =
      ["B", "A"] ∧
    (enumerate (run empty [Op.insert "B" ⟨10, 2⟩, Op.insert "A" ⟨10, 2⟩])).map Prod.fst =
      ["A", "B"] := by
  have hsame : ∀ s p, level (run empty [Op.insert "A" ⟨10, 2⟩, Op.insert "B" ⟨10, 2⟩]) s p =
      level (run empty [Op.insert "B" ⟨10, 2⟩, Op.insert "A" ⟨10, 2⟩]) s p := by
    intro s p
    show level (insert (insert empty "A" ⟨10, 2⟩) "B" ⟨10, 2⟩) s p =
      level (insert (insert empty "B" ⟨10, 2⟩) "A" ⟨10, 2⟩) s p
    rw [level_insert, level_insert, level_insert, level_insert]
    exact levelAfterInsert_comm s p _ _ _
  exact ⟨hsame,
    (enumeration_same_up_to_order [Op.insert "A" ⟨10, 2⟩, Op.insert "B" ⟨10, 2⟩]
      [Op.insert "B" ⟨10, 2⟩, Op.insert "A" ⟨10, 2⟩] hsame).2.2.1,
    by decide, by decide⟩

/-! ## Serialization of inserts on one symbol -/

theorem lotSizeSum_replicate (n : Nat) (s : String) (p : CInt) :
    lotSizeSum (List.replicate n (s, (⟨1, p⟩ : Order))) s p = n := by
  induction n with
  | zero => simp [lotSizeSum, callsAt]
  | succ k ih =>
    rw [List.replicate_succ, lotSizeSum_cons_of_match _ _ s p ⟨rfl, rfl⟩, ih]
    have h1 : (1 : CInt).val = 1 := by decide
    simp only [h1]
    push_cast
    omega

/-- C13 on the code: `insert` evaluates `mutexMap_[symbol]` in `getMutex` before its guard
is constructed, so with no lock held; two concurrent first inserts for one symbol both
modify the registry unsynchronized. Run one after another, `n` inserts of `lotSize` 1 at
one price on one symbol of the empty store do give the single entry of `lotSize` `n`. -/
theorem insert_resolves_lock_unguarded :
    insertEvents "X" =
      [Event.accessRegistry "X",
       Event.acquire (MutexRef.ofSymbol "X") LockMode.exclusive,
       Event.writeTable "X", Event.readTable "X", Event.writeTable "X",
       Event.release (MutexRef.ofSymbol "X")] ∧
    registryAccessesUnderLock [] (insertEvents "X") = false ∧
    (∀ s, registryAccessesUnderLock [] (insertEvents s) = false) ∧
    (∀ c s, registryAccessesUnderLock [] (removeEvents c s) = false) ∧
    (find (insert empty "X" ⟨1, 2⟩).mutexMap_ "X" = some SharedMutex.unlocked ∧
      find empty.mutexMap_ "X" = none) ∧
    (∀ (n : Nat) (s : String) (p : CInt), 0 < n → (n : Int) ≤ INT_MAX →
      ∃ e : Order, level (runInserts empty (List.replicate n (s, ⟨1, p⟩))) s p = some e ∧
        e.price = p ∧ e.lotSize.val = n ∧
        (entriesAt (runInserts empty (List.replicate n (s, ⟨1, p⟩))) s p).length ≤ 1) := by
  refine ⟨rfl, by decide, ?_, ?_, ⟨by decide, by decide⟩, ?_⟩
  · intro s
    simp [insertEvents, registryAccessesUnderLock]
  · intro c s
    simp [removeEvents, registryAccessesUnderLock]
  · intro n s p hn hmax
    have hne : callsAt (List.replicate n (s, (⟨1, p⟩ : Order))) s p ≠ [] := by
      rw [callsAt_ne_nil_iff]
      exact ⟨(s, ⟨1, p⟩), List.mem_replicate.2 ⟨Nat.pos_iff_ne_zero.1 hn, rfl⟩, rfl, rfl⟩
    obtain ⟨e, h1, h2, h3⟩ := (foldl_levelAfterInsert_none _ s p).2 hne
    refine ⟨e, ?_, h2, ?_, ?_⟩
    · rw [level_runInserts]
      exact h1
    · rw [h3, lotSizeSum_replicate]
      unfold INT_MAX at hmax
      unfold wrap32
      omega
    · have hrun : ∀ (calls : List (String × Order)) (c : ConcurrentHashMap),
          runInserts c calls = run c (calls.map (fun call => Op.insert call.1 call.2)) := by
        intro calls
        induction calls with
        | nil => intro c; rfl
        | cons call rest ih => intro c; exact ih (insert c call.1 call.2)
      rw [hrun]
      have hc := consistent_run
        ((List.replicate n (s, (⟨1, p⟩ : Order))).map (fun call => Op.insert call.1 call.2))
        empty consistent_empty
      unfold entriesAt
      cases ht : table (run empty ((List.replicate n (s, (⟨1, p⟩ : Order))).map
          (fun call => Op.insert call.1 call.2))) s with
      | none => simp
      | some t =>
        have hm := mem_of_find_eq_some _ _ _ ht
        exact filter_length_le_one t p (hc.2 _ hm).1

end ConcurrentHashMap

end OrderStore
